import Mathlib

/-!
# ArrayList (`arraylist.h`)

A shallow embedding of the macro-generated growable array of `arraylist.h`,
for one instantiation `GENERATE_ARRAYLIST(name, type)`.

* The element type `type` is the Lean type `T`; `sizeof(type)` is the
  parameter `sz`.
* `size_t` values are natural numbers; every `size_t` operation of the source
  is written with its reduction modulo `SIZE_MAX + 1` (64-bit `size_t`).
* The backing store `data` is the list of the slots the allocator handed out,
  live or not. A read or a write outside that list is undefined in C.
* Every call is a function into `Option`: `none` means the call does not
  return normally (a failed `assert`, or an access outside the buffer);
  `some r` carries the returned code, the container after the call, and the
  value stored through `out`, if any.
* The allocator is an external collaborator: each call that may allocate
  takes the outcome of that allocation as an argument.
-/

namespace Noodle

/-- The largest `size_t`, for a 64-bit `size_t`. -/
def SIZE_MAX : Nat := 18446744073709551615

/-- Initial capacity allocated when creating a new ArrayList (line 18). -/
def INITIAL_CAPACITY : Nat := 10

/-- The enum `ArrayListError_<name>` (lines 33-39). -/
inductive ArrayListError where
  | SUCCESS
  | EMPTY_ARRAYLIST_ERROR
  | INDEX_OUT_OF_BOUNDS_ERROR
  | MEMORY_ERROR
deriving DecidableEq

/-- The struct `ArrayList_<name>` (lines 23-28). `data` lists the slots of the
allocated block, so a valid container has `data.length = capacity`. -/
structure ArrayList (T : Type) where
  data : List T
  count : Nat
  capacity : Nat
deriving DecidableEq

/-- What a call that returns leaves behind: the returned code, the container,
and the value written through `out` (`none` when nothing was written). -/
structure Outcome (T : Type) where
  code : ArrayListError
  arraylist : ArrayList T
  out : Option T
deriving DecidableEq

/-- One answer of the allocator: `none` when it returns `NULL`, `some fill`
when it returns a block, `fill k` being what slot `k` of the block holds
wherever the block's contents are indeterminate. -/
abbrev Alloc (T : Type) := Option (Nat → T)

/-- Addition of two `size_t`, wrapping. -/
def size_add (a b : Nat) : Nat := (a + b) % (SIZE_MAX + 1)

/-- Subtraction of two `size_t`, wrapping: `a - b` when there is no borrow,
`a + (SIZE_MAX + 1) - b` when there is one. -/
def size_sub (a b : Nat) : Nat :=
  if b ≤ a then a - b else (a + (SIZE_MAX + 1) - b) % (SIZE_MAX + 1)

/-- Multiplication of two `size_t`, wrapping. -/
def size_mul (a b : Nat) : Nat := (a * b) % (SIZE_MAX + 1)

/-- The builtin `__builtin_add_overflow` on `size_t`: the overflow flag and
the wrapped sum. -/
def builtin_add_overflow (a b : Nat) : Bool × Nat :=
  (decide (SIZE_MAX < a + b), size_add a b)

/-- The builtin `__builtin_mul_overflow` on `size_t`: the overflow flag and
the wrapped product. -/
def builtin_mul_overflow (a b : Nat) : Bool × Nat :=
  (decide (SIZE_MAX < a * b), size_mul a b)

/-- The call `malloc(bytes)` for elements of size `sz`: a block of
`bytes / sz` slots with indeterminate contents, or `NULL`. -/
def malloc {T : Type} (sz bytes : Nat) (r : Alloc T) : Option (List T) :=
  match r with
  | none => none
  | some fill => some ((List.range (bytes / sz)).map fill)

/-- The call `realloc(data, bytes)` for elements of size `sz`: on success a
block of `bytes / sz` slots that starts with the old contents, as far as they
fit; the slots beyond are indeterminate. On failure the old block stays. -/
def realloc {T : Type} (sz : Nat) (data : List T) (bytes : Nat) (r : Alloc T) :
    Option (List T) :=
  match r with
  | none => none
  | some fill =>
    some (data.take (bytes / sz) ++ (List.range (bytes / sz - data.length)).map fill)

/-- The call `memmove(&data[dst], &data[src], n * sizeof(type))`: the `n`
slots from `src` on are copied to the `n` slots from `dst` on, the source
being read before anything is written. Both ranges must lie in the block. -/
def memmove {T : Type} (data : List T) (dst src n : Nat) : Option (List T) :=
  if src + n ≤ data.length ∧ dst + n ≤ data.length then
    some (data.take dst ++ (data.drop src).take n ++ data.drop (dst + n))
  else none

/-- The statement `if (out != NULL) { *out = data[index]; }`. The flag `out`
says whether the pointer is non-null. The result is `none` when the read is
outside the block, else the value stored through `out`, if any. -/
def read_out {T : Type} (data : List T) (index : Nat) (out : Bool) : Option (Option T) :=
  if out then
    match data[index]? with
    | none => none
    | some v => some (some v)
  else some none

/-- The statement `data[index] = element`; `none` outside the block. -/
def write {T : Type} (data : List T) (index : Nat) (element : T) : Option (List T) :=
  if index < data.length then some (data.set index element) else none

/-- The function `arraylist_create_<name>` (lines 44-58). `header` says whether
the first `malloc` succeeds, `buffer` is the answer to the second; the result
is `none` when the function returns `NULL`. -/
def arraylist_create {T : Type} (sz : Nat) (header : Bool) (buffer : Alloc T) :
    Option (ArrayList T) :=
  if header = false then none
  else
    match malloc sz (size_mul sz INITIAL_CAPACITY) buffer with
    | none => none
    | some data => some { data := data, count := 0, capacity := INITIAL_CAPACITY }

/-- The function `arraylist_count_<name>` (lines 72-75). -/
def arraylist_count {T : Type} (arraylist : ArrayList T) : Nat := arraylist.count

/-- The function `arraylist_is_empty_<name>` (lines 80-83). -/
def arraylist_is_empty {T : Type} (arraylist : ArrayList T) : Bool :=
  decide (arraylist.count = 0)

/-- The function `arraylist_get_<name>` (lines 88-101). -/
def arraylist_get {T : Type} (arraylist : ArrayList T) (index : Nat) (out : Bool) :
    Option (Outcome T) :=
  if arraylist.count = 0 then
    some ⟨.EMPTY_ARRAYLIST_ERROR, arraylist, none⟩
  else if index ≥ arraylist.count then
    some ⟨.INDEX_OUT_OF_BOUNDS_ERROR, arraylist, none⟩
  else
    match read_out arraylist.data index out with
    | none => none
    | some o => some ⟨.SUCCESS, arraylist, o⟩

/-- The function `arraylist_set_<name>` (lines 106-120). -/
def arraylist_set {T : Type} (arraylist : ArrayList T) (index : Nat) (new_element : T)
    (out : Bool) : Option (Outcome T) :=
  if arraylist.count = 0 then
    some ⟨.EMPTY_ARRAYLIST_ERROR, arraylist, none⟩
  else if index ≥ arraylist.count then
    some ⟨.INDEX_OUT_OF_BOUNDS_ERROR, arraylist, none⟩
  else
    match read_out arraylist.data index out with
    | none => none
    | some o =>
      match write arraylist.data index new_element with
      | none => none
      | some data => some ⟨.SUCCESS, { arraylist with data := data }, o⟩

/-- The function `arraylist_get_first_<name>` (lines 125-135). -/
def arraylist_get_first {T : Type} (arraylist : ArrayList T) (out : Bool) :
    Option (Outcome T) :=
  if arraylist.count = 0 then
    some ⟨.EMPTY_ARRAYLIST_ERROR, arraylist, none⟩
  else
    match read_out arraylist.data 0 out with
    | none => none
    | some o => some ⟨.SUCCESS, arraylist, o⟩

/-- The function `arraylist_get_last_<name>` (lines 140-150). -/
def arraylist_get_last {T : Type} (arraylist : ArrayList T) (out : Bool) :
    Option (Outcome T) :=
  if arraylist.count = 0 then
    some ⟨.EMPTY_ARRAYLIST_ERROR, arraylist, none⟩
  else
    match read_out arraylist.data (size_sub arraylist.count 1) out with
    | none => none
    | some o => some ⟨.SUCCESS, arraylist, o⟩

/-- The function `arraylist_grow_<name>` (lines 155-170). The `assert` is
active: a call that violates it does not return. -/
def arraylist_grow {T : Type} (sz : Nat) (r : Alloc T) (arraylist : ArrayList T)
    (new_capacity : Nat) : Option (Outcome T) :=
  if ¬ (new_capacity > arraylist.capacity) then none
  else
    let (overflow, bytes) := builtin_mul_overflow new_capacity sz
    if overflow then
      some ⟨.MEMORY_ERROR, arraylist, none⟩
    else
      match realloc sz arraylist.data bytes r with
      | none => some ⟨.MEMORY_ERROR, arraylist, none⟩
      | some new_array =>
        some ⟨.SUCCESS, { arraylist with data := new_array, capacity := new_capacity }, none⟩

/-- The capacity `arraylist_add_<name>` asks `grow` for when the container is
full (lines 182-194); `none` stands for the early `return MEMORY_ERROR`. -/
def add_new_capacity (capacity : Nat) : Option Nat :=
  let cap := capacity
  let half_of_cap := cap >>> 1
  let (overflow, new_capacity) := builtin_add_overflow capacity half_of_cap
  if overflow then
    if cap = SIZE_MAX then none
    else some (size_add cap 1)
  else some new_capacity

/-- The `if (count == capacity)` block of `arraylist_add_<name>` (lines
181-200): the outcome of the growth, or `SUCCESS` with the container as it is
when there is room. -/
def add_reserve {T : Type} (sz : Nat) (r : Alloc T) (arraylist : ArrayList T) :
    Option (Outcome T) :=
  if arraylist.count = arraylist.capacity then
    match add_new_capacity arraylist.capacity with
    | none => some ⟨.MEMORY_ERROR, arraylist, none⟩
    | some new_capacity => arraylist_grow sz r arraylist new_capacity
  else some ⟨.SUCCESS, arraylist, none⟩

/-- The function `arraylist_add_<name>` (lines 175-206). -/
def arraylist_add {T : Type} (sz : Nat) (r : Alloc T) (arraylist : ArrayList T)
    (index : Nat) (element : T) : Option (Outcome T) :=
  if index > arraylist.count then
    some ⟨.INDEX_OUT_OF_BOUNDS_ERROR, arraylist, none⟩
  else
    match add_reserve sz r arraylist with
    | none => none
    | some res =>
      if res.code ≠ .SUCCESS then some res
      else
        let arraylist := res.arraylist
        match memmove arraylist.data (size_add index 1) index
            (size_sub arraylist.count index) with
        | none => none
        | some moved =>
          match write moved index element with
          | none => none
          | some data =>
            some ⟨.SUCCESS,
              { arraylist with data := data, count := size_add arraylist.count 1 }, none⟩

/-- The function `arraylist_add_first_<name>` (lines 211-215). -/
def arraylist_add_first {T : Type} (sz : Nat) (r : Alloc T) (arraylist : ArrayList T)
    (element : T) : Option (Outcome T) :=
  arraylist_add sz r arraylist 0 element

/-- The function `arraylist_add_last_<name>` (lines 220-224). -/
def arraylist_add_last {T : Type} (sz : Nat) (r : Alloc T) (arraylist : ArrayList T)
    (element : T) : Option (Outcome T) :=
  arraylist_add sz r arraylist arraylist.count element

/-- The function `arraylist_remove_<name>` (lines 247-263). -/
def arraylist_remove {T : Type} (arraylist : ArrayList T) (index : Nat) (out : Bool) :
    Option (Outcome T) :=
  if arraylist.count = 0 then
    some ⟨.EMPTY_ARRAYLIST_ERROR, arraylist, none⟩
  else if index ≥ arraylist.count then
    some ⟨.INDEX_OUT_OF_BOUNDS_ERROR, arraylist, none⟩
  else
    match read_out arraylist.data index out with
    | none => none
    | some o =>
      match memmove arraylist.data index (size_add index 1)
          (size_sub (size_sub arraylist.count index) 1) with
      | none => none
      | some data =>
        some ⟨.SUCCESS, { arraylist with data := data, count := size_sub arraylist.count 1 }, o⟩

/-- The function `arraylist_remove_first_<name>` (lines 229-233). -/
def arraylist_remove_first {T : Type} (arraylist : ArrayList T) (out : Bool) :
    Option (Outcome T) :=
  arraylist_remove arraylist 0 out

/-- The function `arraylist_remove_last_<name>` (lines 238-242). -/
def arraylist_remove_last {T : Type} (arraylist : ArrayList T) (out : Bool) :
    Option (Outcome T) :=
  arraylist_remove arraylist (size_sub arraylist.count 1) out

/-- The live elements: the first `count` slots, in order. -/
def live {T : Type} (arraylist : ArrayList T) : List T :=
  arraylist.data.take arraylist.count

/-- A valid container: the block has `capacity` slots, the live elements fit
in it, and `capacity` is a `size_t`. -/
def WF {T : Type} (arraylist : ArrayList T) : Prop :=
  arraylist.data.length = arraylist.capacity ∧
  arraylist.count ≤ arraylist.capacity ∧
  arraylist.capacity ≤ SIZE_MAX

instance {T : Type} (arraylist : ArrayList T) : Decidable (WF arraylist) := by
  unfold WF; infer_instance

/-- One call of the interface with its arguments and, for a call that may
allocate, the allocator's answer to it. -/
inductive Call (T : Type) where
  | get (index : Nat) (out : Bool)
  | set (index : Nat) (new_element : T) (out : Bool)
  | get_first (out : Bool)
  | get_last (out : Bool)
  | grow (r : Alloc T) (new_capacity : Nat)
  | add (r : Alloc T) (index : Nat) (element : T)
  | add_first (r : Alloc T) (element : T)
  | add_last (r : Alloc T) (element : T)
  | remove (index : Nat) (out : Bool)
  | remove_first (out : Bool)
  | remove_last (out : Bool)

/-- Running one call on a container. -/
def Call.run {T : Type} (sz : Nat) (arraylist : ArrayList T) : Call T → Option (Outcome T)
  | .get index out => arraylist_get arraylist index out
  | .set index new_element out => arraylist_set arraylist index new_element out
  | .get_first out => arraylist_get_first arraylist out
  | .get_last out => arraylist_get_last arraylist out
  | .grow r new_capacity => arraylist_grow sz r arraylist new_capacity
  | .add r index element => arraylist_add sz r arraylist index element
  | .add_first r element => arraylist_add_first sz r arraylist element
  | .add_last r element => arraylist_add_last sz r arraylist element
  | .remove index out => arraylist_remove arraylist index out
  | .remove_first out => arraylist_remove_first arraylist out
  | .remove_last out => arraylist_remove_last arraylist out

/-- The calls that insert: `add`, `add_first`, `add_last`. -/
def Call.is_add {T : Type} : Call T → Bool
  | .add _ _ _ => true
  | .add_first _ _ => true
  | .add_last _ _ => true
  | _ => false

/-- The calls that remove: `remove`, `remove_first`, `remove_last`. -/
def Call.is_remove {T : Type} : Call T → Bool
  | .remove _ _ => true
  | .remove_first _ => true
  | .remove_last _ => true
  | _ => false

/-- Running calls one after the other; the log pairs each call with what it
returned. The result is `none` as soon as one call does not return. -/
def run_calls {T : Type} (sz : Nat) : ArrayList T → List (Call T) →
    Option (List (Call T × Outcome T))
  | _, [] => some []
  | arraylist, c :: cs =>
    match c.run sz arraylist with
    | none => none
    | some res =>
      match run_calls sz res.arraylist cs with
      | none => none
      | some log => some ((c, res) :: log)

/-- The container the logged calls leave, starting from `arraylist`. -/
def state_after {T : Type} (arraylist : ArrayList T) : List (Call T × Outcome T) → ArrayList T
  | [] => arraylist
  | p :: log => state_after p.2.arraylist log

/-- How many logged calls of the given kind returned `SUCCESS`. -/
def successful {T : Type} (kind : Call T → Bool) : List (Call T × Outcome T) → Nat
  | [] => 0
  | p :: log =>
    (if kind p.1 = true ∧ p.2.code = .SUCCESS then 1 else 0) + successful kind log

/-- The containers reachable from construction: what some sequence of calls that all return
leaves, starting from a container `arraylist_create` returned. -/
def Reachable {T : Type} (sz : Nat) (arraylist : ArrayList T) : Prop :=
  ∃ (header : Bool) (buffer : Alloc T) (created : ArrayList T) (calls : List (Call T))
    (log : List (Call T × Outcome T)),
    arraylist_create sz header buffer = some created ∧
    run_calls sz created calls = some log ∧
    state_after created log = arraylist

/-! ## Lemmas and claims -/

theorem shift_right_live {T : Type} (L : List T) (i c : Nat) (v : T) (hi : i ≤ c)
    (hc : c + 1 ≤ L.length) :
    ((L.take (i + 1) ++ (L.drop i).take (c - i) ++ L.drop (i + 1 + (c - i))).set i v).take (c + 1)
      = (L.take c).take i ++ v :: (L.take c).drop i := by
  apply List.ext_getElem?
  intro k
  simp only [List.getElem?_take, List.getElem?_set, List.getElem?_append, List.getElem?_drop,
    List.length_take, List.length_append, List.length_drop, List.getElem?_cons, List.length_cons]
  split_ifs <;> first | rfl | omega | (congr 1; omega)

theorem size_add_eq {a b : Nat} (h : a + b ≤ SIZE_MAX) : size_add a b = a + b := by
  unfold size_add
  exact Nat.mod_eq_of_lt (by omega)

theorem size_sub_eq {a b : Nat} (hb : b ≤ a) : size_sub a b = a - b := by
  unfold size_sub
  rw [if_pos hb]

theorem size_mul_eq {a b : Nat} (h : a * b ≤ SIZE_MAX) : size_mul a b = a * b := by
  unfold size_mul
  exact Nat.mod_eq_of_lt (by omega)

theorem realloc_length {T : Type} {sz bytes : Nat} {data d : List T} {r : Alloc T}
    (h : realloc sz data bytes r = some d) : d.length = bytes / sz := by
  unfold realloc at h
  cases r with
  | none => simp at h
  | some fill =>
    simp only [Option.some.injEq] at h
    subst h
    simp only [List.length_append, List.length_take, List.length_map, List.length_range]
    omega

theorem realloc_take {T : Type} {sz bytes : Nat} {data d : List T} {r : Alloc T}
    (h : realloc sz data bytes r = some d) (hn : data.length ≤ bytes / sz) :
    d.take data.length = data := by
  unfold realloc at h
  cases r with
  | none => simp at h
  | some fill =>
    simp only [Option.some.injEq] at h
    subst h
    rw [List.take_of_length_le hn]
    simp

theorem memmove_length {T : Type} {data d : List T} {dst src n : Nat}
    (h : memmove data dst src n = some d) : d.length = data.length := by
  unfold memmove at h
  split_ifs at h with hb
  simp only [Option.some.injEq] at h
  subst h
  simp only [List.length_append, List.length_take, List.length_drop]
  omega

theorem write_length {T : Type} {data d : List T} {i : Nat} {v : T}
    (h : write data i v = some d) : d.length = data.length := by
  unfold write at h
  split_ifs at h
  simp only [Option.some.injEq] at h
  subst h
  simp

theorem add_new_capacity_spec {cap n : Nat} (hcap : cap ≤ SIZE_MAX)
    (h : add_new_capacity cap = some n) :
    n ≤ SIZE_MAX ∧ cap ≤ n ∧ (2 ≤ cap → cap < n) := by
  unfold add_new_capacity builtin_add_overflow at h
  simp only [Nat.shiftRight_eq_div_pow, pow_one, decide_eq_true_eq] at h
  split_ifs at h with h1 h2
  · simp only [Option.some.injEq] at h
    rw [size_add_eq (by omega)] at h
    omega
  · simp only [Option.some.injEq] at h
    rw [size_add_eq (by omega)] at h
    omega
theorem grow_success {T : Type} {sz : Nat} {r : Alloc T} {a : ArrayList T} {n : Nat}
    {res : Outcome T} (h : arraylist_grow sz r a n = some res) (hs : res.code = .SUCCESS) :
    a.capacity < n ∧ n * sz ≤ SIZE_MAX ∧ res.arraylist.count = a.count ∧
      res.arraylist.capacity = n ∧ res.out = none ∧
      realloc sz a.data (n * sz) r = some res.arraylist.data := by
  unfold arraylist_grow builtin_mul_overflow at h
  simp only [decide_eq_true_eq] at h
  split_ifs at h with h1 h2
  · simp only [Option.some.injEq] at h
    subst h
    simp at hs
  · have hb : size_mul n sz = n * sz := size_mul_eq (by omega)
    rw [hb] at h
    cases hr : realloc sz a.data (n * sz) r with
    | none =>
      rw [hr] at h
      simp only [Option.some.injEq] at h
      subst h
      simp at hs
    | some d =>
      rw [hr] at h
      simp only [Option.some.injEq] at h
      subst h
      exact ⟨by omega, by omega, rfl, rfl, rfl, rfl⟩

theorem grow_failure {T : Type} {sz : Nat} {r : Alloc T} {a : ArrayList T} {n : Nat}
    {res : Outcome T} (h : arraylist_grow sz r a n = some res) (hs : res.code ≠ .SUCCESS) :
    res = ⟨.MEMORY_ERROR, a, none⟩ := by
  unfold arraylist_grow builtin_mul_overflow at h
  simp only [decide_eq_true_eq] at h
  split_ifs at h with h1 h2
  · simp only [Option.some.injEq] at h
    exact h.symm
  · cases hr : realloc sz a.data (size_mul n sz) r with
    | none =>
      rw [hr] at h
      simp only [Option.some.injEq] at h
      exact h.symm
    | some d =>
      rw [hr] at h
      simp only [Option.some.injEq] at h
      subst h
      simp at hs
theorem add_reserve_failure {T : Type} {sz : Nat} {r : Alloc T} {a : ArrayList T}
    {res : Outcome T} (h : add_reserve sz r a = some res) (hs : res.code ≠ .SUCCESS) :
    res = ⟨.MEMORY_ERROR, a, none⟩ := by
  unfold add_reserve at h
  split_ifs at h with hfull
  · cases hn : add_new_capacity a.capacity with
    | none =>
      rw [hn] at h
      simp only [Option.some.injEq] at h
      exact h.symm
    | some n =>
      rw [hn] at h
      exact grow_failure h hs
  · simp only [Option.some.injEq] at h
    subst h
    simp at hs

theorem add_reserve_success {T : Type} {sz : Nat} {r : Alloc T} {a : ArrayList T}
    {res : Outcome T} (hcc : a.count ≤ a.capacity) (hcap : a.capacity ≤ SIZE_MAX)
    (h : add_reserve sz r a = some res) (hs : res.code = .SUCCESS) :
    res.arraylist.count = a.count ∧ a.capacity ≤ res.arraylist.capacity ∧
      res.arraylist.capacity ≤ SIZE_MAX ∧ a.count < res.arraylist.capacity ∧
      res.out = none ∧
      (a.data.length = a.capacity → a.count < res.arraylist.data.length →
        res.arraylist.data.length = res.arraylist.capacity ∧
        res.arraylist.data.take a.count = a.data.take a.count) := by
  unfold add_reserve at h
  split_ifs at h with hfull
  · cases hn : add_new_capacity a.capacity with
    | none =>
      rw [hn] at h
      simp only [Option.some.injEq] at h
      subst h
      simp at hs
    | some n =>
      rw [hn] at h
      obtain ⟨h1, h2, h3, h4, h5, h6⟩ := grow_success h hs
      obtain ⟨k1, k2, _⟩ := add_new_capacity_spec hcap hn
      refine ⟨h3, by omega, by omega, by omega, h5, ?_⟩
      intro hlen hlt
      have hl := realloc_length h6
      have hsz : 0 < sz := by
        rcases Nat.eq_zero_or_pos sz with h0 | h0
        · subst h0
          simp only [Nat.mul_zero, Nat.zero_div] at hl
          omega
        · exact h0
      rw [Nat.mul_div_cancel _ hsz] at hl
      refine ⟨by omega, ?_⟩
      have ht := realloc_take h6 (by rw [Nat.mul_div_cancel _ hsz]; omega)
      rw [hfull, ← hlen, ht]
      simp
  · simp only [Option.some.injEq] at h
    subst h
    refine ⟨rfl, le_refl _, hcap, ?_, rfl, fun hlen _ => ⟨hlen, rfl⟩⟩
    show a.count < a.capacity
    omega

theorem add_success {T : Type} {sz : Nat} {r : Alloc T} {a : ArrayList T} {i : Nat} {v : T}
    {res : Outcome T} (hwf : WF a) (hi : i ≤ a.count)
    (h : arraylist_add sz r a i v = some res) (hs : res.code = .SUCCESS) :
    WF res.arraylist ∧ res.arraylist.count = a.count + 1 ∧
      a.capacity ≤ res.arraylist.capacity ∧ res.out = none ∧
      live res.arraylist = (live a).take i ++ v :: (live a).drop i := by
  unfold arraylist_add at h
  rw [if_neg (by omega)] at h
  cases hg : add_reserve sz r a with
  | none => rw [hg] at h; simp at h
  | some g =>
    rw [hg] at h
    simp only at h
    by_cases hgs : g.code = .SUCCESS
    · rw [if_neg (by simpa using hgs)] at h
      obtain ⟨g1, g2, g3, g4, g5, g6⟩ := add_reserve_success hwf.2.1 hwf.2.2 hg hgs
      have hcnt : a.count ≤ SIZE_MAX := by omega
      rw [g1, size_add_eq (by omega : i + 1 ≤ SIZE_MAX), size_sub_eq hi,
        size_add_eq (by omega : a.count + 1 ≤ SIZE_MAX)] at h
      cases hm : memmove g.arraylist.data (i + 1) i (a.count - i) with
      | none => rw [hm] at h; simp at h
      | some moved =>
        rw [hm] at h
        simp only at h
        cases hw : write moved i v with
        | none => rw [hw] at h; simp at h
        | some d =>
          rw [hw] at h
          simp only [Option.some.injEq] at h
          subst h
          have hml := memmove_length hm
          have hwl := write_length hw
          unfold memmove at hm
          split_ifs at hm with hb
          simp only [Option.some.injEq] at hm
          unfold write at hw
          split_ifs at hw with hb2
          simp only [Option.some.injEq] at hw
          obtain ⟨g7, g8⟩ := g6 hwf.1 (by omega)
          refine ⟨⟨?_, ?_, ?_⟩, rfl, g2, rfl, ?_⟩
          · simp only; omega
          · simp only; omega
          · simp only; omega
          · simp only [live]
            rw [← hw, ← hm, ← g8]
            exact shift_right_live _ _ _ _ hi (by omega)
    · rw [if_pos (by simpa using hgs)] at h
      simp only [Option.some.injEq] at h
      subst h
      exact absurd hs hgs
theorem shift_left_live {T : Type} (L : List T) (i c : Nat) (hi : i < c)
    (hc : c ≤ L.length) :
    (L.take i ++ (L.drop (i + 1)).take (c - i - 1) ++ L.drop (i + (c - i - 1))).take (c - 1)
      = (L.take c).eraseIdx i := by
  apply List.ext_getElem?
  intro k
  simp only [List.getElem?_take, List.getElem?_append, List.getElem?_drop,
    List.length_take, List.length_append, List.length_drop, List.getElem?_eraseIdx]
  split_ifs <;> first | rfl | omega | (congr 1; omega)

theorem add_step {T : Type} {sz : Nat} {r : Alloc T} {a : ArrayList T} {i : Nat} {v : T}
    {res : Outcome T} (hcc : a.count ≤ a.capacity) (hcap : a.capacity ≤ SIZE_MAX)
    (h : arraylist_add sz r a i v = some res) :
    (res.code = .SUCCESS ∧ res.arraylist.count = a.count + 1 ∧
        res.arraylist.count ≤ res.arraylist.capacity ∧
        a.capacity ≤ res.arraylist.capacity ∧ res.arraylist.capacity ≤ SIZE_MAX) ∨
      (res.code ≠ .SUCCESS ∧ res.arraylist = a) := by
  unfold arraylist_add at h
  split_ifs at h with hgt
  · right
    simp only [Option.some.injEq] at h
    subst h
    simp
  · cases hg : add_reserve sz r a with
    | none => rw [hg] at h; simp at h
    | some g =>
      rw [hg] at h
      simp only at h
      by_cases hgs : g.code = .SUCCESS
      · rw [if_neg (by simpa using hgs)] at h
        obtain ⟨g1, g2, g3, g4, g5, g6⟩ := add_reserve_success hcc hcap hg hgs
        rw [g1, size_add_eq (by omega : a.count + 1 ≤ SIZE_MAX)] at h
        cases hm : memmove g.arraylist.data (size_add i 1) i (size_sub a.count i) with
        | none => rw [hm] at h; simp at h
        | some moved =>
          rw [hm] at h
          simp only at h
          cases hw : write moved i v with
          | none => rw [hw] at h; simp at h
          | some d =>
            rw [hw] at h
            simp only [Option.some.injEq] at h
            subst h
            left
            refine ⟨rfl, rfl, ?_, g2, g3⟩
            show a.count + 1 ≤ g.arraylist.capacity
            omega
      · rw [if_pos (by simpa using hgs)] at h
        simp only [Option.some.injEq] at h
        subst h
        right
        refine ⟨hgs, ?_⟩
        rw [add_reserve_failure hg hgs]

theorem remove_success {T : Type} {a : ArrayList T} {i : Nat} (out : Bool) (hwf : WF a)
    (hi : i < a.count) :
    ∃ res, arraylist_remove a i out = some res ∧ res.code = .SUCCESS ∧
      res.out = (if out then (live a)[i]? else none) ∧
      live res.arraylist = (live a).eraseIdx i ∧
      res.arraylist.count + 1 = a.count ∧ res.arraylist.capacity = a.capacity ∧
      WF res.arraylist := by
  obtain ⟨hlen, hcc, hcap⟩ := hwf
  have hcnt : a.count ≤ SIZE_MAX := by omega
  unfold arraylist_remove
  rw [if_neg (by omega), if_neg (by omega), size_add_eq (by omega : i + 1 ≤ SIZE_MAX),
    size_sub_eq (by omega : i ≤ a.count), size_sub_eq (by omega : 1 ≤ a.count - i),
    size_sub_eq (by omega : 1 ≤ a.count)]
  have hread : read_out a.data i out = some (if out then (live a)[i]? else none) := by
    unfold read_out live
    cases out with
    | false => simp
    | true =>
      have hlt : i < a.data.length := by omega
      simp [List.getElem?_take, hi, List.getElem?_eq_getElem hlt]
  rw [hread]
  simp only
  unfold memmove
  rw [if_pos (by omega)]
  refine ⟨_, rfl, rfl, rfl, ?_, ?_, rfl, ?_, ?_, ?_⟩
  · simp only [live]
    have := shift_left_live a.data i a.count hi (by omega)
    exact this
  · show a.count - 1 + 1 = a.count
    omega
  · simp only [List.length_append, List.length_take, List.length_drop]
    omega
  · show a.count - 1 ≤ a.capacity
    omega
  · exact hcap

theorem remove_step {T : Type} {a : ArrayList T} {i : Nat} {out : Bool} {res : Outcome T}
    (h : arraylist_remove a i out = some res) :
    (res.code = .SUCCESS ∧ res.arraylist.count + 1 = a.count ∧
        res.arraylist.capacity = a.capacity) ∨
      (res.code ≠ .SUCCESS ∧ res.arraylist = a) := by
  unfold arraylist_remove at h
  split_ifs at h with h0 h1
  · right
    simp only [Option.some.injEq] at h
    subst h
    simp
  · right
    simp only [Option.some.injEq] at h
    subst h
    simp
  · left
    cases hr : read_out a.data i out with
    | none => rw [hr] at h; simp at h
    | some o =>
      rw [hr] at h
      simp only at h
      cases hm : memmove a.data i (size_add i 1) (size_sub (size_sub a.count i) 1) with
      | none => rw [hm] at h; simp at h
      | some d =>
        rw [hm] at h
        simp only [Option.some.injEq] at h
        subst h
        refine ⟨rfl, ?_, rfl⟩
        show size_sub a.count 1 + 1 = a.count
        rw [size_sub_eq (by omega)]
        omega

theorem read_out_live {T : Type} {a : ArrayList T} {i : Nat} (out : Bool)
    (hlen : a.count ≤ a.data.length) (hi : i < a.count) :
    read_out a.data i out = some (if out = true then (live a)[i]? else none) := by
  unfold read_out live
  cases out with
  | false => simp
  | true =>
    have hlt : i < a.data.length := by omega
    simp [List.getElem?_take, hi, List.getElem?_eq_getElem hlt]

theorem get_spec {T : Type} (a : ArrayList T) (index : Nat) (out : Bool)
    (hlen : a.count ≤ a.data.length) :
    arraylist_get a index out =
      some ⟨if a.count = 0 then .EMPTY_ARRAYLIST_ERROR
            else if index ≥ a.count then .INDEX_OUT_OF_BOUNDS_ERROR else .SUCCESS,
        a, if out = true ∧ index < a.count then (live a)[index]? else none⟩ := by
  unfold arraylist_get
  by_cases h0 : a.count = 0
  · rw [if_pos h0, if_pos h0, if_neg (by omega)]
  · rw [if_neg h0, if_neg h0]
    by_cases h1 : index ≥ a.count
    · rw [if_pos h1, if_pos h1, if_neg (by omega)]
    · have hi : index < a.count := by omega
      rw [if_neg h1, if_neg h1, read_out_live out hlen hi]
      cases out <;> simp [hi]

/-- C1: for every valid container (`count ≤ capacity`), every `i ≤ count` and every `v`, if
`add(i, v)` returns `SUCCESS`, with or without a growth, the new count is the old count plus
one and the live sequence is the old one with `v` inserted at `i`: positions below `i` are
unchanged, position `i` holds `v`, and what was at `k ≥ i` is now at `k + 1`. -/
theorem add_inserts_at_index {T : Type} (sz : Nat) (r : Alloc T) (a : ArrayList T) (i : Nat)
    (v : T) (res : Outcome T) (hwf : WF a) (hi : i ≤ a.count)
    (h : arraylist_add sz r a i v = some res) (hs : res.code = .SUCCESS) :
    res.arraylist.count = a.count + 1 ∧
      live res.arraylist = (live a).take i ++ v :: (live a).drop i ∧
      (∀ k, k < i → (live res.arraylist)[k]? = (live a)[k]?) ∧
      (live res.arraylist)[i]? = some v ∧
      (∀ k, i ≤ k → (live res.arraylist)[k + 1]? = (live a)[k]?) := by
  obtain ⟨hwf2, hcnt, _, _, hlive⟩ := add_success hwf hi h hs
  have hll : (live a).length = a.count := by
    unfold live
    rw [List.length_take]
    have := hwf.1
    have := hwf.2.1
    omega
  have hlt : ((live a).take i).length = i := by
    rw [List.length_take]
    omega
  refine ⟨hcnt, hlive, ?_, ?_, ?_⟩
  · intro k hk
    rw [hlive, List.getElem?_append_left (by omega), List.getElem?_take_of_lt hk]
  · rw [hlive, List.getElem?_append_right (by omega), hlt]
    simp
  · intro k hk
    rw [hlive, List.getElem?_append_right (by omega), hlt]
    have e : k + 1 - i = (k - i) + 1 := by omega
    rw [e, List.getElem?_cons_succ, List.getElem?_drop]
    congr 1
    omega

theorem add_inserts_at_index_witness :
    WF (⟨[1, 2, 3], 3, 3⟩ : ArrayList Nat) ∧
      arraylist_add 4 (some fun _ => 9) ⟨[1, 2, 3], 3, 3⟩ 1 7
        = some ⟨.SUCCESS, ⟨[1, 7, 2, 3], 4, 4⟩, none⟩ ∧
      live (⟨[1, 7, 2, 3], 4, 4⟩ : ArrayList Nat)
        = (live (⟨[1, 2, 3], 3, 3⟩ : ArrayList Nat)).take 1
            ++ 7 :: (live (⟨[1, 2, 3], 3, 3⟩ : ArrayList Nat)).drop 1 :=
  ⟨by decide, by decide,
    (add_inserts_at_index 4 (some fun _ => 9) ⟨[1, 2, 3], 3, 3⟩ 1 7
      ⟨.SUCCESS, ⟨[1, 7, 2, 3], 4, 4⟩, none⟩ (by decide) (by decide) (by decide) rfl).2.1⟩

/-- C2: for every valid container and every `i < count`, `remove(i)` returns `SUCCESS`, stores
the element that was at `i` through `out` (when `out` is given), leaves the live sequence equal
to the old one with position `i` erased (positions below `i` unchanged, what was at `k + 1 > i`
now at `k`), decrements `count` by one and leaves `capacity` unchanged. -/
theorem remove_erases_index {T : Type} (a : ArrayList T) (i : Nat) (out : Bool) (hwf : WF a)
    (hi : i < a.count) :
    ∃ res, arraylist_remove a i out = some res ∧ res.code = .SUCCESS ∧
      res.out = (if out = true then (live a)[i]? else none) ∧
      (∃ x, (live a)[i]? = some x) ∧
      live res.arraylist = (live a).eraseIdx i ∧
      (∀ k, k < i → (live res.arraylist)[k]? = (live a)[k]?) ∧
      (∀ k, i ≤ k → (live res.arraylist)[k]? = (live a)[k + 1]?) ∧
      res.arraylist.count + 1 = a.count ∧ res.arraylist.capacity = a.capacity := by
  obtain ⟨res, h1, h2, h3, h4, h5, h6, _⟩ := remove_success out hwf hi
  have hll : (live a).length = a.count := by
    unfold live
    rw [List.length_take]
    have := hwf.1
    have := hwf.2.1
    omega
  refine ⟨res, h1, h2, h3, ⟨(live a)[i], List.getElem?_eq_getElem (by omega)⟩, h4, ?_, ?_, h5, h6⟩
  · intro k hk
    rw [h4, List.getElem?_eraseIdx, if_pos hk]
  · intro k hk
    rw [h4, List.getElem?_eraseIdx, if_neg (by omega)]

theorem remove_erases_index_witness :
    WF (⟨[1, 2, 3, 0], 3, 4⟩ : ArrayList Nat) ∧
      ∃ res, arraylist_remove (⟨[1, 2, 3, 0], 3, 4⟩ : ArrayList Nat) 1 true = some res ∧
        res.code = .SUCCESS ∧ res.out = some 2 ∧ live res.arraylist = [1, 3] ∧
        res.arraylist.count + 1 = 3 ∧ res.arraylist.capacity = 4 :=
  ⟨by decide,
    match remove_erases_index (⟨[1, 2, 3, 0], 3, 4⟩ : ArrayList Nat) 1 true (by decide)
      (by decide) with
    | ⟨res, h1, h2, h3, _, h4, _, _, h5, h6⟩ => ⟨res, h1, h2, h3, h4, h5, h6⟩⟩

/-- C3: on every valid container and for every index, `get(index)` returns: `EMPTY_ARRAYLIST_ERROR`
if `count == 0`, otherwise `INDEX_OUT_OF_BOUNDS_ERROR` if `index >= count`, otherwise `SUCCESS`
with the element at `index` stored through `out`; in all three cases the container is left as
it was, so the same call repeated on the container it leaves returns the same result. -/
theorem get_total_read_only {T : Type} (a : ArrayList T) (index : Nat) (out : Bool)
    (hwf : WF a) :
    ∃ res, arraylist_get a index out = some res ∧
      res.code = (if a.count = 0 then ArrayListError.EMPTY_ARRAYLIST_ERROR
        else if index ≥ a.count then ArrayListError.INDEX_OUT_OF_BOUNDS_ERROR
        else ArrayListError.SUCCESS) ∧
      res.out = (if out = true ∧ index < a.count then (live a)[index]? else none) ∧
      (index < a.count → ∃ x, (live a)[index]? = some x) ∧
      res.arraylist = a ∧
      arraylist_get res.arraylist index out = some res := by
  have hlen : a.count ≤ a.data.length := by
    have := hwf.1
    have := hwf.2.1
    omega
  have hll : (live a).length = a.count := by
    unfold live
    rw [List.length_take]
    omega
  refine ⟨_, get_spec a index out hlen, rfl, rfl, ?_, rfl, get_spec a index out hlen⟩
  intro hi
  exact ⟨(live a)[index], List.getElem?_eq_getElem (by omega)⟩

theorem get_total_read_only_witness :
    WF (⟨[1, 2, 3, 0], 3, 4⟩ : ArrayList Nat) ∧
      ∃ res, arraylist_get (⟨[1, 2, 3, 0], 3, 4⟩ : ArrayList Nat) 2 true = some res ∧
        res.code = .SUCCESS ∧ res.out = some 3 ∧ res.arraylist = ⟨[1, 2, 3, 0], 3, 4⟩ :=
  ⟨by decide,
    match get_total_read_only (⟨[1, 2, 3, 0], 3, 4⟩ : ArrayList Nat) 2 true (by decide) with
    | ⟨res, h1, h2, h3, _, h4, _⟩ => ⟨res, h1, h2, h3, h4⟩⟩

/-- C4: for every valid container, every `i < count` and every `v`, `set(i, v)` returns
`SUCCESS`, stores the value previously at `i` through `out` (when `out` is given), makes
position `i` hold `v`, and leaves every other slot, `count` and `capacity` unchanged. -/
theorem set_overwrites_one_slot {T : Type} (a : ArrayList T) (i : Nat) (v : T) (out : Bool)
    (hwf : WF a) (hi : i < a.count) :
    ∃ res, arraylist_set a i v out = some res ∧ res.code = .SUCCESS ∧
      res.out = (if out = true then (live a)[i]? else none) ∧
      (∃ x, (live a)[i]? = some x) ∧
      (live res.arraylist)[i]? = some v ∧
      (∀ k, k ≠ i → res.arraylist.data[k]? = a.data[k]?) ∧
      res.arraylist.data.length = a.data.length ∧
      res.arraylist.count = a.count ∧ res.arraylist.capacity = a.capacity := by
  obtain ⟨hlen, hcc, hcap⟩ := hwf
  have hlt : i < a.data.length := by omega
  have hll : (live a).length = a.count := by
    unfold live
    rw [List.length_take]
    omega
  unfold arraylist_set
  rw [if_neg (by omega), if_neg (by omega), read_out_live out (by omega) hi]
  unfold write
  rw [if_pos hlt]
  refine ⟨_, rfl, rfl, rfl, ⟨(live a)[i], List.getElem?_eq_getElem (by omega)⟩, ?_, ?_, ?_,
    rfl, rfl⟩
  · show ((a.data.set i v).take a.count)[i]? = some v
    rw [List.getElem?_take_of_lt hi, List.getElem?_set_self hlt]
  · intro k hk
    show (a.data.set i v)[k]? = a.data[k]?
    rw [List.getElem?_set_ne (Ne.symm hk)]
  · show (a.data.set i v).length = a.data.length
    rw [List.length_set]

theorem set_overwrites_one_slot_witness :
    WF (⟨[1, 2, 3, 0], 3, 4⟩ : ArrayList Nat) ∧
      ∃ res, arraylist_set (⟨[1, 2, 3, 0], 3, 4⟩ : ArrayList Nat) 1 9 true = some res ∧
        res.code = .SUCCESS ∧ res.out = some 2 ∧ (live res.arraylist)[1]? = some 9 ∧
        res.arraylist.count = 3 ∧ res.arraylist.capacity = 4 :=
  ⟨by decide,
    match set_overwrites_one_slot (⟨[1, 2, 3, 0], 3, 4⟩ : ArrayList Nat) 1 9 true (by decide)
      (by decide) with
    | ⟨res, h1, h2, h3, _, h4, _, _, h5, h6⟩ => ⟨res, h1, h2, h3, h4, h5, h6⟩⟩

/-- C5: `get`, `set` and `remove` on a container with `count == 0` return
`EMPTY_ARRAYLIST_ERROR` for every index (0 and `SIZE_MAX` included), never
`INDEX_OUT_OF_BOUNDS_ERROR`; on a non-empty container they return `INDEX_OUT_OF_BOUNDS_ERROR`
for every `index >= count`; in each of these cases the container is returned as it was and
nothing is stored through `out`. -/
theorem errors_leave_container_unchanged {T : Type} (a : ArrayList T) (index : Nat) (v : T)
    (out : Bool) :
    (a.count = 0 →
      arraylist_get a index out = some ⟨.EMPTY_ARRAYLIST_ERROR, a, none⟩ ∧
      arraylist_set a index v out = some ⟨.EMPTY_ARRAYLIST_ERROR, a, none⟩ ∧
      arraylist_remove a index out = some ⟨.EMPTY_ARRAYLIST_ERROR, a, none⟩) ∧
    (a.count ≠ 0 → a.count ≤ index →
      arraylist_get a index out = some ⟨.INDEX_OUT_OF_BOUNDS_ERROR, a, none⟩ ∧
      arraylist_set a index v out = some ⟨.INDEX_OUT_OF_BOUNDS_ERROR, a, none⟩ ∧
      arraylist_remove a index out = some ⟨.INDEX_OUT_OF_BOUNDS_ERROR, a, none⟩) := by
  constructor
  · intro h0
    unfold arraylist_get arraylist_set arraylist_remove
    rw [if_pos h0, if_pos h0, if_pos h0]
    exact ⟨rfl, rfl, rfl⟩
  · intro h0 h1
    have h2 : index ≥ a.count := h1
    unfold arraylist_get arraylist_set arraylist_remove
    rw [if_neg h0, if_neg h0, if_neg h0, if_pos h2, if_pos h2, if_pos h2]
    exact ⟨rfl, rfl, rfl⟩

theorem errors_leave_container_unchanged_witness :
    (arraylist_get (⟨[0, 0], 0, 2⟩ : ArrayList Nat) SIZE_MAX true
        = some ⟨.EMPTY_ARRAYLIST_ERROR, ⟨[0, 0], 0, 2⟩, none⟩ ∧
      arraylist_set (⟨[0, 0], 0, 2⟩ : ArrayList Nat) SIZE_MAX 5 true
        = some ⟨.EMPTY_ARRAYLIST_ERROR, ⟨[0, 0], 0, 2⟩, none⟩ ∧
      arraylist_remove (⟨[0, 0], 0, 2⟩ : ArrayList Nat) SIZE_MAX true
        = some ⟨.EMPTY_ARRAYLIST_ERROR, ⟨[0, 0], 0, 2⟩, none⟩) ∧
    (arraylist_get (⟨[4, 0], 1, 2⟩ : ArrayList Nat) 1 true
        = some ⟨.INDEX_OUT_OF_BOUNDS_ERROR, ⟨[4, 0], 1, 2⟩, none⟩ ∧
      arraylist_set (⟨[4, 0], 1, 2⟩ : ArrayList Nat) 1 5 true
        = some ⟨.INDEX_OUT_OF_BOUNDS_ERROR, ⟨[4, 0], 1, 2⟩, none⟩ ∧
      arraylist_remove (⟨[4, 0], 1, 2⟩ : ArrayList Nat) 1 true
        = some ⟨.INDEX_OUT_OF_BOUNDS_ERROR, ⟨[4, 0], 1, 2⟩, none⟩) :=
  ⟨(errors_leave_container_unchanged (⟨[0, 0], 0, 2⟩ : ArrayList Nat) SIZE_MAX 5 true).1
      (by decide),
    (errors_leave_container_unchanged (⟨[4, 0], 1, 2⟩ : ArrayList Nat) 1 5 true).2
      (by decide) (by decide)⟩

theorem add_code_of_le {T : Type} {sz : Nat} {r : Alloc T} {a : ArrayList T} {j : Nat} {v : T}
    {res : Outcome T} (hj : j ≤ a.count) (h : arraylist_add sz r a j v = some res) :
    res.code = .SUCCESS ∨ res = ⟨.MEMORY_ERROR, a, none⟩ := by
  unfold arraylist_add at h
  rw [if_neg (by omega)] at h
  cases hg : add_reserve sz r a with
  | none => rw [hg] at h; exact Option.noConfusion h
  | some g =>
    rw [hg] at h
    by_cases hgs : g.code = .SUCCESS
    · simp only [hgs, ne_eq, not_true_eq_false, if_false] at h
      cases hm : memmove g.arraylist.data (size_add j 1) j (size_sub g.arraylist.count j) with
      | none => simp only [hm] at h; exact Option.noConfusion h
      | some moved =>
        simp only [hm] at h
        cases hw : write moved j v with
        | none => simp only [hw] at h; exact Option.noConfusion h
        | some d =>
          simp only [hw, Option.some.injEq] at h
          subst h
          exact Or.inl rfl
    · simp only [ne_eq, hgs, not_false_eq_true, if_true, Option.some.injEq] at h
      subst h
      exact Or.inr (add_reserve_failure hg hgs)

/-- C6: for every container and every value, `add(index, v)` returns
`INDEX_OUT_OF_BOUNDS_ERROR` if and only if `index > count`; then the container is returned as
it was, whatever the allocator would have answered (it is not asked). In particular
`add(count + 1, v)` is rejected and `add(count, v)` never returns that code. -/
theorem add_rejects_above_count {T : Type} (sz : Nat) (r : Alloc T) (a : ArrayList T)
    (index : Nat) (v : T) :
    ((∃ res, arraylist_add sz r a index v = some res ∧
        res.code = .INDEX_OUT_OF_BOUNDS_ERROR) ↔ index > a.count) ∧
    (index > a.count →
      arraylist_add sz r a index v = some ⟨.INDEX_OUT_OF_BOUNDS_ERROR, a, none⟩) ∧
    arraylist_add sz r a (a.count + 1) v = some ⟨.INDEX_OUT_OF_BOUNDS_ERROR, a, none⟩ ∧
    (∀ res, arraylist_add sz r a a.count v = some res →
      res.code ≠ .INDEX_OUT_OF_BOUNDS_ERROR) := by
  have hrej : ∀ j, j > a.count →
      arraylist_add sz r a j v = some ⟨.INDEX_OUT_OF_BOUNDS_ERROR, a, none⟩ := by
    intro j hj
    unfold arraylist_add
    rw [if_pos hj]
  have hacc : ∀ j res, j ≤ a.count → arraylist_add sz r a j v = some res →
      res.code ≠ .INDEX_OUT_OF_BOUNDS_ERROR := by
    intro j res hj h
    rcases add_code_of_le hj h with hc | hc
    · rw [hc]
      exact ArrayListError.noConfusion
    · rw [hc]
      exact ArrayListError.noConfusion
  refine ⟨⟨?_, ?_⟩, hrej index, hrej _ (by omega), fun res h => hacc _ res (le_refl _) h⟩
  · rintro ⟨res, h, hc⟩
    by_contra hle
    exact hacc index res (by omega) h hc
  · intro hgt
    exact ⟨_, hrej index hgt, rfl⟩

theorem add_new_capacity_max : add_new_capacity SIZE_MAX = none := by decide

theorem grow_refused {T : Type} (sz : Nat) (r : Alloc T) (a : ArrayList T) (n : Nat)
    (hn : a.capacity < n) (hfail : r = none ∨ SIZE_MAX < n * sz) :
    arraylist_grow sz r a n = some ⟨.MEMORY_ERROR, a, none⟩ := by
  unfold arraylist_grow builtin_mul_overflow
  rw [if_neg (by omega)]
  by_cases hov : SIZE_MAX < n * sz
  · simp only [hov, decide_True, if_true]
  · rcases hfail with hr | hr
    · subst hr
      simp only [hov, decide_False, realloc]
      rfl
    · exact absurd hr hov

theorem add_growth_failure_of_capacity {T : Type} (sz : Nat) (r : Alloc T) (a : ArrayList T)
    (i : Nat) (v : T) (hcap : a.capacity ≤ SIZE_MAX) (hfull : a.count = a.capacity)
    (h2 : 2 ≤ a.capacity) (hi : i ≤ a.count)
    (hfail : a.capacity = SIZE_MAX ∨ r = none ∨
      ∃ n, add_new_capacity a.capacity = some n ∧ SIZE_MAX < n * sz) :
    arraylist_add sz r a i v = some ⟨.MEMORY_ERROR, a, none⟩ := by
  have hres : add_reserve sz r a = some ⟨.MEMORY_ERROR, a, none⟩ := by
    unfold add_reserve
    rw [if_pos hfull]
    cases hn : add_new_capacity a.capacity with
    | none => rfl
    | some n =>
      obtain ⟨_, _, k3⟩ := add_new_capacity_spec hcap hn
      show arraylist_grow sz r a n = _
      apply grow_refused sz r a n (k3 h2)
      rcases hfail with hf | hf | ⟨m, hm, hf⟩
      · rw [hf, add_new_capacity_max] at hn
        exact Option.noConfusion hn
      · exact Or.inl hf
      · rw [hn] at hm
        simp only [Option.some.injEq] at hm
        subst hm
        exact Or.inr hf
  unfold arraylist_add
  rw [if_neg (by omega), hres]
  rfl

/-- C8: for every valid container, every `i <= count` and every `v`, if `add(i, v)` returns
`SUCCESS` then `get(i)` on the container it leaves returns `SUCCESS` and stores `v` through
`out`. -/
theorem add_then_get {T : Type} (sz : Nat) (r : Alloc T) (a : ArrayList T) (i : Nat) (v : T)
    (res : Outcome T) (hwf : WF a) (hi : i ≤ a.count)
    (h : arraylist_add sz r a i v = some res) (hs : res.code = .SUCCESS) :
    arraylist_get res.arraylist i true = some ⟨.SUCCESS, res.arraylist, some v⟩ := by
  obtain ⟨hwf2, hcnt, _, _, hlive⟩ := add_success hwf hi h hs
  have hlen : res.arraylist.count ≤ res.arraylist.data.length := by
    have := hwf2.1
    have := hwf2.2.1
    omega
  have hll : (live a).length = a.count := by
    unfold live
    rw [List.length_take]
    have := hwf.1
    have := hwf.2.1
    omega
  have hlt : ((live a).take i).length = i := by
    rw [List.length_take]
    omega
  have hv : (live res.arraylist)[i]? = some v := by
    rw [hlive, List.getElem?_append_right (by omega), hlt]
    simp
  rw [get_spec res.arraylist i true hlen, if_neg (by omega), if_neg (by omega),
    if_pos ⟨rfl, by omega⟩, hv]

theorem add_then_get_witness :
    arraylist_add 4 (some fun _ => 9) (⟨[1, 2, 3], 3, 3⟩ : ArrayList Nat) 1 7
        = some ⟨.SUCCESS, ⟨[1, 7, 2, 3], 4, 4⟩, none⟩ ∧
      arraylist_get (⟨[1, 7, 2, 3], 4, 4⟩ : ArrayList Nat) 1 true
        = some ⟨.SUCCESS, ⟨[1, 7, 2, 3], 4, 4⟩, some 7⟩ :=
  ⟨by decide,
    add_then_get 4 (some fun _ => 9) ⟨[1, 2, 3], 3, 3⟩ 1 7
      ⟨.SUCCESS, ⟨[1, 7, 2, 3], 4, 4⟩, none⟩ (by decide) (by decide) (by decide) rfl⟩

theorem get_step {T : Type} {a : ArrayList T} {i : Nat} {out : Bool} {res : Outcome T}
    (h : arraylist_get a i out = some res) : res.arraylist = a := by
  unfold arraylist_get at h
  split_ifs at h with h0 h1
  · simp only [Option.some.injEq] at h
    subst h
    rfl
  · simp only [Option.some.injEq] at h
    subst h
    rfl
  · cases hr : read_out a.data i out with
    | none => simp only [hr] at h; exact Option.noConfusion h
    | some o =>
      simp only [hr, Option.some.injEq] at h
      subst h
      rfl

theorem get_first_step {T : Type} {a : ArrayList T} {out : Bool} {res : Outcome T}
    (h : arraylist_get_first a out = some res) : res.arraylist = a := by
  unfold arraylist_get_first at h
  split_ifs at h with h0
  · simp only [Option.some.injEq] at h
    subst h
    rfl
  · cases hr : read_out a.data 0 out with
    | none => simp only [hr] at h; exact Option.noConfusion h
    | some o =>
      simp only [hr, Option.some.injEq] at h
      subst h
      rfl

theorem get_last_step {T : Type} {a : ArrayList T} {out : Bool} {res : Outcome T}
    (h : arraylist_get_last a out = some res) : res.arraylist = a := by
  unfold arraylist_get_last at h
  split_ifs at h with h0
  · simp only [Option.some.injEq] at h
    subst h
    rfl
  · cases hr : read_out a.data (size_sub a.count 1) out with
    | none => simp only [hr] at h; exact Option.noConfusion h
    | some o =>
      simp only [hr, Option.some.injEq] at h
      subst h
      rfl

theorem set_step {T : Type} {a : ArrayList T} {i : Nat} {v : T} {out : Bool} {res : Outcome T}
    (h : arraylist_set a i v out = some res) :
    res.arraylist.count = a.count ∧ res.arraylist.capacity = a.capacity := by
  unfold arraylist_set at h
  split_ifs at h with h0 h1
  · simp only [Option.some.injEq] at h
    subst h
    exact ⟨rfl, rfl⟩
  · simp only [Option.some.injEq] at h
    subst h
    exact ⟨rfl, rfl⟩
  · cases hr : read_out a.data i out with
    | none => simp only [hr] at h; exact Option.noConfusion h
    | some o =>
      simp only [hr] at h
      cases hw : write a.data i v with
      | none => simp only [hw] at h; exact Option.noConfusion h
      | some d =>
        simp only [hw, Option.some.injEq] at h
        subst h
        exact ⟨rfl, rfl⟩

theorem grow_step {T : Type} {sz : Nat} {r : Alloc T} {a : ArrayList T} {n : Nat}
    {res : Outcome T} (h : arraylist_grow sz r a n = some res) :
    res.arraylist.count = a.count ∧ a.capacity ≤ res.arraylist.capacity ∧
      (0 < sz → a.capacity ≤ SIZE_MAX → res.arraylist.capacity ≤ SIZE_MAX) := by
  by_cases hs : res.code = .SUCCESS
  · obtain ⟨h1, h2, h3, h4, _, _⟩ := grow_success h hs
    refine ⟨h3, by omega, ?_⟩
    intro hsz _
    rw [h4]
    have : n * 1 ≤ n * sz := Nat.mul_le_mul_left n hsz
    omega
  · rw [grow_failure h hs]
    exact ⟨rfl, le_refl _, fun _ hc => hc⟩

theorem call_step {T : Type} {sz : Nat} {a : ArrayList T} {c : Call T} {res : Outcome T}
    (hcc : a.count ≤ a.capacity) (hcap : a.capacity ≤ SIZE_MAX)
    (hsz : 0 < sz ∨ c.is_add = true ∨ c.is_remove = true)
    (h : c.run sz a = some res) :
    res.arraylist.count + (if c.is_remove = true ∧ res.code = .SUCCESS then 1 else 0)
        = a.count + (if c.is_add = true ∧ res.code = .SUCCESS then 1 else 0) ∧
      res.arraylist.count ≤ res.arraylist.capacity ∧
      a.capacity ≤ res.arraylist.capacity ∧ res.arraylist.capacity ≤ SIZE_MAX := by
  have hadd : ∀ r i v, arraylist_add sz r a i v = some res →
      res.arraylist.count + 0 = a.count + (if res.code = .SUCCESS then 1 else 0) ∧
      res.arraylist.count ≤ res.arraylist.capacity ∧
      a.capacity ≤ res.arraylist.capacity ∧ res.arraylist.capacity ≤ SIZE_MAX := by
    intro r i v h
    rcases add_step hcc hcap h with ⟨h1, h2, h3, h4, h5⟩ | ⟨h1, h2⟩
    · rw [if_pos h1]
      exact ⟨by omega, h3, h4, h5⟩
    · rw [if_neg h1, h2]
      exact ⟨rfl, hcc, le_refl _, hcap⟩
  have hrem : ∀ i out, arraylist_remove a i out = some res →
      res.arraylist.count + (if res.code = .SUCCESS then 1 else 0) = a.count + 0 ∧
      res.arraylist.count ≤ res.arraylist.capacity ∧
      a.capacity ≤ res.arraylist.capacity ∧ res.arraylist.capacity ≤ SIZE_MAX := by
    intro i out h
    rcases remove_step h with ⟨h1, h2, h3⟩ | ⟨h1, h2⟩
    · rw [if_pos h1]
      exact ⟨by omega, by omega, by omega, by omega⟩
    · rw [if_neg h1, h2]
      exact ⟨rfl, hcc, le_refl _, hcap⟩
  have hsame : res.arraylist.count = a.count → res.arraylist.capacity = a.capacity →
      res.arraylist.count + 0 = a.count + 0 ∧
      res.arraylist.count ≤ res.arraylist.capacity ∧
      a.capacity ≤ res.arraylist.capacity ∧ res.arraylist.capacity ≤ SIZE_MAX := by
    intro e1 e2
    omega
  cases c with
  | get i out =>
    have e := get_step h
    simpa [Call.is_add, Call.is_remove] using hsame (by rw [e]) (by rw [e])
  | set i v out =>
    have e := set_step h
    simpa [Call.is_add, Call.is_remove] using hsame e.1 e.2
  | get_first out =>
    have e := get_first_step h
    simpa [Call.is_add, Call.is_remove] using hsame (by rw [e]) (by rw [e])
  | get_last out =>
    have e := get_last_step h
    simpa [Call.is_add, Call.is_remove] using hsame (by rw [e]) (by rw [e])
  | grow r n =>
    obtain ⟨e1, e2, e3⟩ := grow_step h
    have hpos : 0 < sz := by
      rcases hsz with h0 | h0 | h0
      · exact h0
      · simp [Call.is_add] at h0
      · simp [Call.is_remove] at h0
    have e4 := e3 hpos hcap
    simp only [Call.is_add, Call.is_remove, Bool.false_eq_true, false_and, if_false]
    exact ⟨by omega, by omega, e2, e4⟩
  | add r i v => simpa [Call.is_add, Call.is_remove] using hadd r i v h
  | add_first r v => simpa [Call.is_add, Call.is_remove] using hadd r 0 v h
  | add_last r v => simpa [Call.is_add, Call.is_remove] using hadd r a.count v h
  | remove i out => simpa [Call.is_add, Call.is_remove] using hrem i out h
  | remove_first out => simpa [Call.is_add, Call.is_remove] using hrem 0 out h
  | remove_last out =>
    simpa [Call.is_add, Call.is_remove] using hrem (size_sub a.count 1) out h

theorem create_spec {T : Type} {sz : Nat} {header : Bool} {buffer : Alloc T} {a : ArrayList T}
    (h : arraylist_create sz header buffer = some a) :
    a.count = 0 ∧ a.capacity = INITIAL_CAPACITY ∧
      (0 < sz → sz * INITIAL_CAPACITY ≤ SIZE_MAX → a.data.length = INITIAL_CAPACITY) := by
  unfold arraylist_create at h
  split_ifs at h with hh
  cases buffer with
  | none => exact Option.noConfusion h
  | some fill =>
    simp only [malloc, Option.some.injEq] at h
    subst h
    refine ⟨rfl, rfl, ?_⟩
    intro hsz hfit
    show ((List.range (size_mul sz INITIAL_CAPACITY / sz)).map fill).length = INITIAL_CAPACITY
    rw [List.length_map, List.length_range, size_mul_eq hfit, Nat.mul_div_cancel_left _ hsz]

theorem add_reserve_total {T : Type} (sz : Nat) (r : Alloc T) (a : ArrayList T) (hwf : WF a)
    (h2 : 2 ≤ a.capacity) (hsz : 0 < sz) :
    ∃ g, add_reserve sz r a = some g ∧
      (g.code = .SUCCESS → g.arraylist.data.length = g.arraylist.capacity) := by
  obtain ⟨hlen, hcc, hcap⟩ := hwf
  unfold add_reserve
  by_cases hfull : a.count = a.capacity
  · rw [if_pos hfull]
    cases hn : add_new_capacity a.capacity with
    | none => exact ⟨_, rfl, fun hs => ArrayListError.noConfusion hs⟩
    | some n =>
      obtain ⟨_, _, k3⟩ := add_new_capacity_spec hcap hn
      have hlt := k3 h2
      show ∃ g, arraylist_grow sz r a n = some g ∧ _
      by_cases hov : SIZE_MAX < n * sz
      · exact ⟨_, grow_refused sz r a n hlt (Or.inr hov), fun hs => ArrayListError.noConfusion hs⟩
      · cases r with
        | none =>
          exact ⟨_, grow_refused sz none a n hlt (Or.inl rfl),
            fun hs => ArrayListError.noConfusion hs⟩
        | some fill =>
          unfold arraylist_grow builtin_mul_overflow
          rw [if_neg (by omega)]
          simp only [hov, decide_False, realloc]
          refine ⟨_, rfl, ?_⟩
          intro _
          show (a.data.take (size_mul n sz / sz)
            ++ (List.range (size_mul n sz / sz - a.data.length)).map fill).length = n
          rw [size_mul_eq (by omega), Nat.mul_div_cancel _ hsz]
          simp only [List.length_append, List.length_take, List.length_map, List.length_range]
          omega
  · rw [if_neg hfull]
    exact ⟨_, rfl, fun _ => hlen⟩

theorem add_total {T : Type} (sz : Nat) (r : Alloc T) (a : ArrayList T) (i : Nat) (v : T)
    (hwf : WF a) (h2 : 2 ≤ a.capacity) (hsz : 0 < sz) :
    ∃ res, arraylist_add sz r a i v = some res := by
  unfold arraylist_add
  by_cases hi : i > a.count
  · rw [if_pos hi]
    exact ⟨_, rfl⟩
  · rw [if_neg hi]
    obtain ⟨g, hg, hglen⟩ := add_reserve_total sz r a hwf h2 hsz
    rw [hg]
    by_cases hgs : g.code = .SUCCESS
    · obtain ⟨g1, g2, g3, g4, _, _⟩ := add_reserve_success hwf.2.1 hwf.2.2 hg hgs
      have hl := hglen hgs
      simp only [hgs, ne_eq, not_true_eq_false, if_false]
      rw [g1, size_add_eq (by omega : i + 1 ≤ SIZE_MAX), size_sub_eq (by omega : i ≤ a.count)]
      unfold memmove
      rw [if_pos (by omega)]
      simp only
      unfold write
      rw [if_pos (by
        simp only [List.length_append, List.length_take, List.length_drop]
        omega)]
      exact ⟨_, rfl⟩
    · simp only [ne_eq, hgs, not_false_eq_true, if_true]
      exact ⟨_, rfl⟩

theorem add_keeps_valid {T : Type} {sz : Nat} {r : Alloc T} {a : ArrayList T} {i : Nat} {v : T}
    {res : Outcome T} (hwf : WF a) (h : arraylist_add sz r a i v = some res) :
    WF res.arraylist ∧ a.capacity ≤ res.arraylist.capacity := by
  by_cases hi : i > a.count
  · unfold arraylist_add at h
    rw [if_pos hi] at h
    simp only [Option.some.injEq] at h
    subst h
    exact ⟨hwf, le_refl _⟩
  · rcases add_code_of_le (by omega) h with hs | hs
    · obtain ⟨h1, _, h3, _⟩ := add_success hwf (by omega) h hs
      exact ⟨h1, h3⟩
    · rw [hs]
      exact ⟨hwf, le_refl _⟩

theorem remove_total {T : Type} (a : ArrayList T) (i : Nat) (out : Bool) (hwf : WF a) :
    ∃ res, arraylist_remove a i out = some res ∧ WF res.arraylist ∧
      res.arraylist.capacity = a.capacity := by
  by_cases h0 : a.count = 0
  · refine ⟨⟨.EMPTY_ARRAYLIST_ERROR, a, none⟩, ?_, hwf, rfl⟩
    unfold arraylist_remove
    rw [if_pos h0]
  · by_cases h1 : i ≥ a.count
    · refine ⟨⟨.INDEX_OUT_OF_BOUNDS_ERROR, a, none⟩, ?_, hwf, rfl⟩
      unfold arraylist_remove
      rw [if_neg h0, if_pos h1]
    · obtain ⟨res, e1, _, _, _, _, e6, e7⟩ := remove_success out hwf (by omega : i < a.count)
      exact ⟨res, e1, e7, e6⟩

theorem run_calls_cons {T : Type} {sz : Nat} {a : ArrayList T} {c : Call T} {cs : List (Call T)}
    {log : List (Call T × Outcome T)} (h : run_calls sz a (c :: cs) = some log) :
    ∃ res rest, c.run sz a = some res ∧ run_calls sz res.arraylist cs = some rest ∧
      log = (c, res) :: rest := by
  rw [run_calls] at h
  cases hc : c.run sz a with
  | none => simp only [hc] at h; exact Option.noConfusion h
  | some res =>
    simp only [hc] at h
    cases hr : run_calls sz res.arraylist cs with
    | none => simp only [hr] at h; exact Option.noConfusion h
    | some rest =>
      simp only [hr, Option.some.injEq] at h
      exact ⟨res, rest, rfl, hr, h.symm⟩

theorem run_calls_accounting {T : Type} (sz : Nat) (calls : List (Call T)) :
    ∀ (a : ArrayList T) (log : List (Call T × Outcome T)),
      a.count ≤ a.capacity → a.capacity ≤ SIZE_MAX →
      (∀ c ∈ calls, 0 < sz ∨ c.is_add = true ∨ c.is_remove = true) →
      run_calls sz a calls = some log →
      log.map Prod.fst = calls ∧
      ∀ j, (state_after a (log.take j)).count + successful Call.is_remove (log.take j)
            = a.count + successful Call.is_add (log.take j) ∧
          (state_after a (log.take j)).count ≤ (state_after a (log.take j)).capacity ∧
          a.capacity ≤ (state_after a (log.take j)).capacity ∧
          (state_after a (log.take j)).capacity ≤ SIZE_MAX := by
  induction calls with
  | nil =>
    intro a log hcc hcap _ h
    rw [run_calls] at h
    simp only [Option.some.injEq] at h
    subst h
    refine ⟨rfl, ?_⟩
    intro j
    rw [List.take_nil]
    exact ⟨rfl, hcc, le_refl _, hcap⟩
  | cons c cs ih =>
    intro a log hcc hcap hk h
    obtain ⟨res, rest, hc, hr, hlog⟩ := run_calls_cons h
    subst hlog
    obtain ⟨s1, s2, s3, s4⟩ := call_step hcc hcap (hk c (List.mem_cons_self _ _)) hc
    obtain ⟨m, hj⟩ := ih res.arraylist rest s2 s4
      (fun c' hc' => hk c' (List.mem_cons_of_mem _ hc')) hr
    refine ⟨by simp only [List.map_cons, m], ?_⟩
    intro j
    cases j with
    | zero =>
      rw [List.take_zero]
      exact ⟨rfl, hcc, le_refl _, hcap⟩
    | succ j =>
      obtain ⟨t1, t2, t3, t4⟩ := hj j
      simp only [List.take_succ_cons, state_after, successful]
      exact ⟨by omega, t2, by omega, t4⟩

theorem run_calls_total {T : Type} (sz : Nat) (hsz : 0 < sz) (calls : List (Call T)) :
    ∀ (a : ArrayList T), WF a → 2 ≤ a.capacity →
      (∀ c ∈ calls, c.is_add = true ∨ c.is_remove = true) →
      ∃ log, run_calls sz a calls = some log := by
  induction calls with
  | nil =>
    intro a _ _ _
    exact ⟨[], rfl⟩
  | cons c cs ih =>
    intro a hwf h2 hk
    have hstep : ∃ res, c.run sz a = some res ∧ WF res.arraylist ∧
        a.capacity ≤ res.arraylist.capacity := by
      have hadd : ∀ r i v, ∃ res, arraylist_add sz r a i v = some res ∧ WF res.arraylist ∧
          a.capacity ≤ res.arraylist.capacity := by
        intro r i v
        obtain ⟨res, h⟩ := add_total sz r a i v hwf h2 hsz
        exact ⟨res, h, add_keeps_valid hwf h⟩
      have hrem : ∀ i out, ∃ res, arraylist_remove a i out = some res ∧ WF res.arraylist ∧
          a.capacity ≤ res.arraylist.capacity := by
        intro i out
        obtain ⟨res, h, hw, hc⟩ := remove_total a i out hwf
        exact ⟨res, h, hw, by omega⟩
      have hkc := hk c (List.mem_cons_self _ _)
      cases c with
      | add r i v => exact hadd r i v
      | add_first r v => exact hadd r 0 v
      | add_last r v => exact hadd r a.count v
      | remove i out => exact hrem i out
      | remove_first out => exact hrem 0 out
      | remove_last out => exact hrem (size_sub a.count 1) out
      | get i out => simp [Call.is_add, Call.is_remove] at hkc
      | set i v out => simp [Call.is_add, Call.is_remove] at hkc
      | get_first out => simp [Call.is_add, Call.is_remove] at hkc
      | get_last out => simp [Call.is_add, Call.is_remove] at hkc
      | grow r n => simp [Call.is_add, Call.is_remove] at hkc
    obtain ⟨res, hc, hw, hcap⟩ := hstep
    obtain ⟨rest, hr⟩ := ih res.arraylist hw (by omega)
      (fun c' hc' => hk c' (List.mem_cons_of_mem _ hc'))
    refine ⟨(c, res) :: rest, ?_⟩
    rw [run_calls]
    simp only [hc, hr]

/-- C9: for every finite sequence of `add` and `remove` calls (their `first` and `last` forms
included), with arbitrary indices, values and allocator answers, run on a freshly created
container: after every number `j` of calls, `count` plus the number of removals that returned
`SUCCESS` equals the number of insertions that returned `SUCCESS`, as natural numbers (so the
unsigned `count` never wrapped); and, for an element size the initial block can hold, every
call of the sequence returns. -/
theorem count_accounting {T : Type} (sz : Nat) (header : Bool) (buffer : Alloc T)
    (a : ArrayList T) (calls : List (Call T))
    (hcreate : arraylist_create sz header buffer = some a)
    (hkind : ∀ c ∈ calls, c.is_add = true ∨ c.is_remove = true) :
    (∀ log, run_calls sz a calls = some log →
      log.map Prod.fst = calls ∧
      ∀ j, (state_after a (log.take j)).count + successful Call.is_remove (log.take j)
            = successful Call.is_add (log.take j) ∧
          (state_after a (log.take j)).count ≤ SIZE_MAX) ∧
    (0 < sz → sz * INITIAL_CAPACITY ≤ SIZE_MAX → ∃ log, run_calls sz a calls = some log) := by
  obtain ⟨h0, h10, hlen⟩ := create_spec hcreate
  have hcap : a.capacity ≤ SIZE_MAX := by
    rw [h10]
    decide
  constructor
  · intro log hlog
    obtain ⟨m, hj⟩ := run_calls_accounting sz calls a log (by omega) hcap
      (fun c hc => Or.inr (hkind c hc)) hlog
    refine ⟨m, ?_⟩
    intro j
    obtain ⟨t1, t2, _, t4⟩ := hj j
    exact ⟨by omega, by omega⟩
  · intro hsz hfit
    have hwf : WF a := ⟨by rw [hlen hsz hfit, h10], by omega, hcap⟩
    exact run_calls_total sz hsz calls a hwf (by rw [h10]; decide) hkind

theorem count_accounting_witness :
    arraylist_create 4 true (some fun _ => 0)
        = some (⟨[0, 0, 0, 0, 0, 0, 0, 0, 0, 0], 0, 10⟩ : ArrayList Nat) ∧
      ∃ log, run_calls 4 (⟨[0, 0, 0, 0, 0, 0, 0, 0, 0, 0], 0, 10⟩ : ArrayList Nat)
          [.add_last none 5, .add none 7 9, .add_first none 3, .remove 0 true,
            .remove_last true, .remove 0 false] = some log ∧
        (state_after (⟨[0, 0, 0, 0, 0, 0, 0, 0, 0, 0], 0, 10⟩ : ArrayList Nat) log).count
            + successful Call.is_remove log = successful Call.is_add log :=
  ⟨by decide,
    match (count_accounting 4 true (some fun _ => 0)
        (⟨[0, 0, 0, 0, 0, 0, 0, 0, 0, 0], 0, 10⟩ : ArrayList Nat)
        [.add_last none 5, .add none 7 9, .add_first none 3, .remove 0 true,
          .remove_last true, .remove 0 false] (by decide) (by decide)).2
        (by decide) (by decide) with
    | ⟨log, hlog⟩ =>
      ⟨log, hlog, by
        have h := (((count_accounting 4 true (some fun _ => 0)
          (⟨[0, 0, 0, 0, 0, 0, 0, 0, 0, 0], 0, 10⟩ : ArrayList Nat)
          [.add_last none 5, .add none 7 9, .add_first none 3, .remove 0 true,
            .remove_last true, .remove 0 false] (by decide) (by decide)).1 log hlog).2
              log.length).1
        rw [List.take_length] at h
        exact h⟩⟩

theorem add_bounds {T : Type} {sz : Nat} {r : Alloc T} {a : ArrayList T} {i : Nat} {v : T}
    {res : Outcome T} (hcc : a.count ≤ a.capacity)
    (h : arraylist_add sz r a i v = some res) :
    res.arraylist.count ≤ res.arraylist.capacity ∧ a.capacity ≤ res.arraylist.capacity := by
  unfold arraylist_add at h
  split_ifs at h with hgt
  · simp only [Option.some.injEq] at h
    subst h
    exact ⟨hcc, le_refl _⟩
  · cases hg : add_reserve sz r a with
    | none => rw [hg] at h; exact Option.noConfusion h
    | some g =>
      rw [hg] at h
      by_cases hgs : g.code = .SUCCESS
      · have hres : g.arraylist.count = a.count ∧ a.capacity ≤ g.arraylist.capacity ∧
            a.count < g.arraylist.capacity := by
          unfold add_reserve at hg
          split_ifs at hg with hfull
          · cases hn : add_new_capacity a.capacity with
            | none =>
              rw [hn] at hg
              simp only [Option.some.injEq] at hg
              subst hg
              exact ArrayListError.noConfusion hgs
            | some n =>
              rw [hn] at hg
              obtain ⟨e1, _, e3, e4, _, _⟩ := grow_success hg hgs
              exact ⟨e3, by omega, by omega⟩
          · simp only [Option.some.injEq] at hg
            subst hg
            exact ⟨rfl, le_refl _, by
              show a.count < a.capacity
              omega⟩
        obtain ⟨g1, g2, g3⟩ := hres
        simp only [hgs, ne_eq, not_true_eq_false, if_false] at h
        cases hm : memmove g.arraylist.data (size_add i 1) i (size_sub g.arraylist.count i) with
        | none => simp only [hm] at h; exact Option.noConfusion h
        | some moved =>
          simp only [hm] at h
          cases hw : write moved i v with
          | none => simp only [hw] at h; exact Option.noConfusion h
          | some d =>
            simp only [hw, Option.some.injEq] at h
            subst h
            refine ⟨?_, g2⟩
            show size_add g.arraylist.count 1 ≤ g.arraylist.capacity
            have hle : size_add g.arraylist.count 1 ≤ g.arraylist.count + 1 := Nat.mod_le _ _
            omega
      · simp only [ne_eq, hgs, not_false_eq_true, if_true, Option.some.injEq] at h
        subst h
        rw [add_reserve_failure hg hgs]
        exact ⟨hcc, le_refl _⟩

theorem call_bounds {T : Type} {sz : Nat} {a : ArrayList T} {c : Call T} {res : Outcome T}
    (hcc : a.count ≤ a.capacity) (h : c.run sz a = some res) :
    res.arraylist.count ≤ res.arraylist.capacity ∧ a.capacity ≤ res.arraylist.capacity := by
  have hrem : ∀ i out, arraylist_remove a i out = some res →
      res.arraylist.count ≤ res.arraylist.capacity ∧ a.capacity ≤ res.arraylist.capacity := by
    intro i out h
    rcases remove_step h with ⟨_, h2, h3⟩ | ⟨_, h2⟩
    · exact ⟨by omega, by omega⟩
    · rw [h2]
      exact ⟨hcc, le_refl _⟩
  have hsame : res.arraylist = a →
      res.arraylist.count ≤ res.arraylist.capacity ∧ a.capacity ≤ res.arraylist.capacity := by
    intro e
    rw [e]
    exact ⟨hcc, le_refl _⟩
  cases c with
  | get i out => exact hsame (get_step h)
  | set i v out =>
    obtain ⟨e1, e2⟩ := set_step h
    exact ⟨by omega, by omega⟩
  | get_first out => exact hsame (get_first_step h)
  | get_last out => exact hsame (get_last_step h)
  | grow r n =>
    obtain ⟨e1, e2, _⟩ := grow_step h
    exact ⟨by omega, e2⟩
  | add r i v => exact add_bounds hcc h
  | add_first r v => exact add_bounds hcc (show arraylist_add sz r a 0 v = some res from h)
  | add_last r v => exact add_bounds hcc (show arraylist_add sz r a a.count v = some res from h)
  | remove i out => exact hrem i out h
  | remove_first out => exact hrem 0 out h
  | remove_last out => exact hrem (size_sub a.count 1) out h

theorem run_calls_bounds {T : Type} (sz : Nat) (calls : List (Call T)) :
    ∀ (a : ArrayList T) (log : List (Call T × Outcome T)),
      a.count ≤ a.capacity → run_calls sz a calls = some log →
      ∀ j, (state_after a (log.take j)).count ≤ (state_after a (log.take j)).capacity ∧
        a.capacity ≤ (state_after a (log.take j)).capacity := by
  induction calls with
  | nil =>
    intro a log hcc h j
    rw [run_calls] at h
    simp only [Option.some.injEq] at h
    subst h
    rw [List.take_nil]
    exact ⟨hcc, le_refl _⟩
  | cons c cs ih =>
    intro a log hcc h j
    obtain ⟨res, rest, hc, hr, hlog⟩ := run_calls_cons h
    subst hlog
    obtain ⟨s1, s2⟩ := call_bounds hcc hc
    cases j with
    | zero =>
      rw [List.take_zero]
      exact ⟨hcc, le_refl _⟩
    | succ j =>
      obtain ⟨t1, t2⟩ := ih res.arraylist rest s1 hr j
      rw [List.take_succ_cons]
      exact ⟨t1, le_trans s2 t2⟩

/-- C10: a freshly created container has `count` 0 and `capacity` 10; every call of the
interface that returns (`get`, `set`, `add`, `remove`, their `first` and `last` forms, and
`grow`), whatever code it returns, leaves `count <= capacity` when it held before and never
decreases `capacity`; hence after any number of calls on a freshly created container
`count <= capacity` and `capacity >= 10`. -/
theorem capacity_invariants {T : Type} (sz : Nat) :
    (∀ (header : Bool) (buffer : Alloc T) (a : ArrayList T),
      arraylist_create sz header buffer = some a → a.count = 0 ∧ a.capacity = 10) ∧
    (∀ (a : ArrayList T) (c : Call T) (res : Outcome T),
      a.count ≤ a.capacity → c.run sz a = some res →
      res.arraylist.count ≤ res.arraylist.capacity ∧
        a.capacity ≤ res.arraylist.capacity) ∧
    (∀ (header : Bool) (buffer : Alloc T) (a : ArrayList T) (calls : List (Call T))
        (log : List (Call T × Outcome T)),
      arraylist_create sz header buffer = some a → run_calls sz a calls = some log →
      ∀ j, (state_after a (log.take j)).count ≤ (state_after a (log.take j)).capacity ∧
        10 ≤ (state_after a (log.take j)).capacity) := by
  refine ⟨?_, ?_, ?_⟩
  · intro header buffer a h
    obtain ⟨h0, h10, _⟩ := create_spec h
    exact ⟨h0, h10⟩
  · intro a c res hcc h
    exact call_bounds hcc h
  · intro header buffer a calls log hcreate hlog j
    obtain ⟨h0, h10, _⟩ := create_spec hcreate
    have h10' : a.capacity = 10 := h10
    obtain ⟨t1, t2⟩ := run_calls_bounds sz calls a log (by omega) hlog j
    exact ⟨t1, by omega⟩

theorem capacity_invariants_witness :
    (Call.add (some fun _ => 9) 1 7).run 4 (⟨[1, 2, 3], 3, 3⟩ : ArrayList Nat)
        = some ⟨.SUCCESS, ⟨[1, 7, 2, 3], 4, 4⟩, none⟩ ∧
      (⟨[1, 7, 2, 3], 4, 4⟩ : ArrayList Nat).count
        ≤ (⟨[1, 7, 2, 3], 4, 4⟩ : ArrayList Nat).capacity ∧
      (⟨[1, 2, 3], 3, 3⟩ : ArrayList Nat).capacity
        ≤ (⟨[1, 7, 2, 3], 4, 4⟩ : ArrayList Nat).capacity :=
  ⟨by decide,
    (capacity_invariants 4).2.1 (⟨[1, 2, 3], 3, 3⟩ : ArrayList Nat)
      (Call.add (some fun _ => 9) 1 7) ⟨.SUCCESS, ⟨[1, 7, 2, 3], 4, 4⟩, none⟩
      (by decide) (by decide)⟩

theorem add_capacity {T : Type} {sz : Nat} {r : Alloc T} {a : ArrayList T} {i : Nat} {v : T}
    {res : Outcome T} (h : arraylist_add sz r a i v = some res) :
    (res.arraylist.capacity = a.capacity ∧ (res.code = .SUCCESS → a.count ≠ a.capacity)) ∨
      (res.code = .SUCCESS ∧ a.count = a.capacity ∧ a.capacity < res.arraylist.capacity ∧
        res.arraylist.capacity * sz ≤ SIZE_MAX ∧
        add_new_capacity a.capacity = some res.arraylist.capacity) := by
  unfold arraylist_add at h
  split_ifs at h with hgt
  · simp only [Option.some.injEq] at h
    subst h
    exact Or.inl ⟨rfl, fun hs => ArrayListError.noConfusion hs⟩
  · cases hg : add_reserve sz r a with
    | none => rw [hg] at h; exact Option.noConfusion h
    | some g =>
      rw [hg] at h
      by_cases hgs : g.code = .SUCCESS
      · simp only [hgs, ne_eq, not_true_eq_false, if_false] at h
        cases hm : memmove g.arraylist.data (size_add i 1) i (size_sub g.arraylist.count i) with
        | none => simp only [hm] at h; exact Option.noConfusion h
        | some moved =>
          simp only [hm] at h
          cases hw : write moved i v with
          | none => simp only [hw] at h; exact Option.noConfusion h
          | some d =>
            simp only [hw, Option.some.injEq] at h
            subst h
            unfold add_reserve at hg
            split_ifs at hg with hfull
            · cases hn : add_new_capacity a.capacity with
              | none =>
                rw [hn] at hg
                simp only [Option.some.injEq] at hg
                subst hg
                exact ArrayListError.noConfusion hgs
              | some n =>
                rw [hn] at hg
                obtain ⟨e1, e2, _, e4, _, _⟩ := grow_success hg hgs
                right
                refine ⟨rfl, hfull, ?_, ?_, ?_⟩
                · show a.capacity < g.arraylist.capacity
                  omega
                · show g.arraylist.capacity * sz ≤ SIZE_MAX
                  rw [e4]
                  exact e2
                · show some n = some g.arraylist.capacity
                  rw [e4]
            · simp only [Option.some.injEq] at hg
              subst hg
              exact Or.inl ⟨rfl, fun _ => hfull⟩
      · simp only [ne_eq, hgs, not_false_eq_true, if_true, Option.some.injEq] at h
        subst h
        rw [add_reserve_failure hg hgs]
        exact Or.inl ⟨rfl, fun hs => ArrayListError.noConfusion hs⟩

theorem add_new_capacity_eq (c : Nat) (hc : c ≤ SIZE_MAX) :
    add_new_capacity c =
      if c + c / 2 ≤ SIZE_MAX then some (c + c / 2)
      else if c = SIZE_MAX then none else some (c + 1) := by
  unfold add_new_capacity builtin_add_overflow
  simp only [Nat.shiftRight_eq_div_pow, pow_one, decide_eq_true_eq]
  by_cases h1 : c + c / 2 ≤ SIZE_MAX
  · rw [if_neg (by omega), if_pos h1, size_add_eq h1]
  · rw [if_pos (by omega), if_neg h1]
    by_cases h2 : c = SIZE_MAX
    · rw [if_pos h2, if_pos h2]
    · rw [if_neg h2, if_neg h2, size_add_eq (by omega)]

/-- C11: on a full container of capacity `c` (a `size_t`), `add` with a valid index asks
`grow` for `c + c / 2` when that sum does not exceed `SIZE_MAX`, for `c + 1` when it does and
`c < SIZE_MAX`, and returns `MEMORY_ERROR` without calling `grow` (whatever the allocator would
answer) when `c == SIZE_MAX`. When `add` returns `SUCCESS` after a growth the capacity is the
requested one (10 gives 15, 15 gives 22, 22 gives 33); when the container is not full the
capacity is unchanged. -/
theorem growth_policy {T : Type} (sz : Nat) (r : Alloc T) (a : ArrayList T) (i : Nat) (v : T) :
    (a.capacity ≤ SIZE_MAX → a.capacity + a.capacity / 2 ≤ SIZE_MAX →
      add_new_capacity a.capacity = some (a.capacity + a.capacity / 2)) ∧
    (a.capacity < SIZE_MAX → SIZE_MAX < a.capacity + a.capacity / 2 →
      add_new_capacity a.capacity = some (a.capacity + 1)) ∧
    (a.capacity = SIZE_MAX → a.count = a.capacity → i ≤ a.count →
      add_new_capacity a.capacity = none ∧
      arraylist_add sz r a i v = some ⟨.MEMORY_ERROR, a, none⟩) ∧
    (a.count = a.capacity →
      add_reserve sz r a =
        match add_new_capacity a.capacity with
        | none => some ⟨.MEMORY_ERROR, a, none⟩
        | some new_capacity => arraylist_grow sz r a new_capacity) ∧
    (∀ n g, arraylist_grow sz r a n = some g → g.code = .SUCCESS →
      g.arraylist.capacity = n) ∧
    (∀ res, a.count = a.capacity → arraylist_add sz r a i v = some res → res.code = .SUCCESS →
      add_new_capacity a.capacity = some res.arraylist.capacity) ∧
    (∀ res, a.count ≠ a.capacity → arraylist_add sz r a i v = some res →
      res.arraylist.capacity = a.capacity) ∧
    add_new_capacity 10 = some 15 ∧ add_new_capacity 15 = some 22 ∧
    add_new_capacity 22 = some 33 := by
  refine ⟨?_, ?_, ?_, ?_, ?_, ?_, ?_, by decide, by decide, by decide⟩
  · intro hc h1
    rw [add_new_capacity_eq _ hc, if_pos h1]
  · intro hc h1
    rw [add_new_capacity_eq _ (by omega), if_neg (by omega), if_neg (by omega)]
  · intro hc hfull hi
    have hn : add_new_capacity a.capacity = none := by
      rw [hc]
      exact add_new_capacity_max
    refine ⟨hn, ?_⟩
    unfold arraylist_add add_reserve
    rw [if_neg (by omega), if_pos hfull, hn]
    rfl
  · intro hfull
    unfold add_reserve
    rw [if_pos hfull]
  · intro n g hg hgs
    exact (grow_success hg hgs).2.2.2.1
  · intro res hfull h hs
    rcases add_capacity h with ⟨_, e2⟩ | ⟨_, _, _, _, e5⟩
    · exact absurd hfull (e2 hs)
    · exact e5
  · intro res hne h
    rcases add_capacity h with ⟨e1, _⟩ | ⟨_, e2, _⟩
    · exact e1
    · exact absurd e2 hne

theorem grow_succeeds {T : Type} (sz : Nat) (fill : Nat → T) (a : ArrayList T)
    (new_capacity : Nat) (hwf : WF a) (hsz : 0 < sz) (hn : a.capacity < new_capacity)
    (hfit : new_capacity * sz ≤ SIZE_MAX) :
    ∃ res, arraylist_grow sz (some fill) a new_capacity = some res ∧ res.code = .SUCCESS ∧
      res.arraylist.capacity = new_capacity ∧ res.arraylist.count = a.count ∧
      res.arraylist.data.length = new_capacity ∧
      res.arraylist.data.take a.data.length = a.data ∧
      live res.arraylist = live a ∧ WF res.arraylist := by
  obtain ⟨hlen, hcc, hcap⟩ := hwf
  have hgrow : arraylist_grow sz (some fill) a new_capacity =
      some ⟨.SUCCESS, { a with
        data := a.data.take (new_capacity * sz / sz)
          ++ (List.range (new_capacity * sz / sz - a.data.length)).map fill,
        capacity := new_capacity }, none⟩ := by
    unfold arraylist_grow builtin_mul_overflow
    rw [if_neg (by omega)]
    simp only [show ¬ SIZE_MAX < new_capacity * sz from by omega, decide_False, realloc,
      size_mul_eq hfit]
    rfl
  rw [Nat.mul_div_cancel _ hsz] at hgrow
  have htake : a.data.take new_capacity = a.data := List.take_of_length_le (by omega)
  rw [htake] at hgrow
  refine ⟨_, hgrow, rfl, rfl, rfl, ?_, ?_, ?_, ?_, ?_, ?_⟩
  · show (a.data ++ (List.range (new_capacity - a.data.length)).map fill).length
      = new_capacity
    rw [List.length_append, List.length_map, List.length_range]
    omega
  · show (a.data ++ (List.range (new_capacity - a.data.length)).map fill).take a.data.length
      = a.data
    rw [List.take_left']
    rfl
  · show (a.data ++ (List.range (new_capacity - a.data.length)).map fill).take a.count
      = a.data.take a.count
    rw [List.take_append_of_le_length (by omega)]
  · show (a.data ++ (List.range (new_capacity - a.data.length)).map fill).length
      = new_capacity
    rw [List.length_append, List.length_map, List.length_range]
    omega
  · show a.count ≤ new_capacity
    omega
  · show new_capacity ≤ SIZE_MAX
    have : new_capacity * 1 ≤ new_capacity * sz := Nat.mul_le_mul_left _ hsz
    omega

/-- C12: for every container and every `new_capacity > capacity`: if
`new_capacity * sizeof(type)` exceeds `SIZE_MAX`, `grow` returns `MEMORY_ERROR` whatever the
allocator would answer and leaves the container as it was; if the allocator refuses, `grow`
returns `MEMORY_ERROR` and leaves the container as it was; otherwise, on a valid container, `grow` returns `SUCCESS`,
`capacity` becomes `new_capacity`, the block has `new_capacity` slots, and `count` and every
slot the old block had (the live elements among them) are unchanged. -/
theorem grow_contract {T : Type} (sz : Nat) (r : Alloc T) (a : ArrayList T) (new_capacity : Nat)
    (hn : a.capacity < new_capacity) :
    (SIZE_MAX < new_capacity * sz →
      ∀ r0 : Alloc T, arraylist_grow sz r0 a new_capacity = some ⟨.MEMORY_ERROR, a, none⟩) ∧
    (r = none → arraylist_grow sz r a new_capacity = some ⟨.MEMORY_ERROR, a, none⟩) ∧
    (WF a → 0 < sz → new_capacity * sz ≤ SIZE_MAX → r ≠ none →
      ∃ res, arraylist_grow sz r a new_capacity = some res ∧ res.code = .SUCCESS ∧
        res.arraylist.capacity = new_capacity ∧ res.arraylist.count = a.count ∧
        res.arraylist.data.length = new_capacity ∧
        res.arraylist.data.take a.data.length = a.data ∧
        live res.arraylist = live a ∧ WF res.arraylist) := by
  refine ⟨?_, ?_, ?_⟩
  · intro hov r0
    exact grow_refused sz r0 a new_capacity hn (Or.inr hov)
  · intro hr
    exact grow_refused sz r a new_capacity hn (Or.inl hr)
  · intro hwf hsz hfit hr
    cases r with
    | none => exact absurd rfl hr
    | some fill => exact grow_succeeds sz fill a new_capacity hwf hsz hn hfit

theorem grow_contract_witness :
    WF (⟨[1, 2, 3], 2, 3⟩ : ArrayList Nat) ∧
      arraylist_grow 4 (none : Alloc Nat) ⟨[1, 2, 3], 2, 3⟩ 5
        = some ⟨.MEMORY_ERROR, ⟨[1, 2, 3], 2, 3⟩, none⟩ ∧
      ∃ res, arraylist_grow 4 (some fun _ => 9) (⟨[1, 2, 3], 2, 3⟩ : ArrayList Nat) 5 = some res ∧
        res.code = .SUCCESS ∧ res.arraylist.capacity = 5 ∧ res.arraylist.count = 2 ∧
        live res.arraylist = live (⟨[1, 2, 3], 2, 3⟩ : ArrayList Nat) :=
  ⟨by decide,
    (grow_contract 4 (none : Alloc Nat) ⟨[1, 2, 3], 2, 3⟩ 5 (by decide)).2.1 rfl,
    match (grow_contract 4 (some fun _ => 9) (⟨[1, 2, 3], 2, 3⟩ : ArrayList Nat) 5
      (by decide)).2.2 (by decide) (by decide) (by decide) (fun h => Option.noConfusion h) with
    | ⟨res, h1, h2, h3, h4, _, _, h5, _⟩ => ⟨res, h1, h2, h3, h4, h5⟩⟩

theorem run_calls_invariant {T : Type} (sz : Nat) (P : ArrayList T → Prop)
    (hstep : ∀ (a : ArrayList T) (c : Call T) (res : Outcome T),
      P a → c.run sz a = some res → P res.arraylist)
    (calls : List (Call T)) :
    ∀ (a : ArrayList T) (log : List (Call T × Outcome T)),
      P a → run_calls sz a calls = some log → P (state_after a log) := by
  induction calls with
  | nil =>
    intro a log hp h
    rw [run_calls] at h
    simp only [Option.some.injEq] at h
    subst h
    exact hp
  | cons c cs ih =>
    intro a log hp h
    obtain ⟨res, rest, hc, hr, hlog⟩ := run_calls_cons h
    subst hlog
    exact ih res.arraylist rest (hstep a c res hp hc) hr

theorem set_keeps_valid {T : Type} {a : ArrayList T} {i : Nat} {v : T} {out : Bool}
    {res : Outcome T} (hwf : WF a) (h : arraylist_set a i v out = some res) :
    WF res.arraylist := by
  unfold arraylist_set at h
  split_ifs at h with h0 h1
  · simp only [Option.some.injEq] at h
    subst h
    exact hwf
  · simp only [Option.some.injEq] at h
    subst h
    exact hwf
  · cases hr : read_out a.data i out with
    | none => simp only [hr] at h; exact Option.noConfusion h
    | some o =>
      simp only [hr] at h
      cases hw : write a.data i v with
      | none => simp only [hw] at h; exact Option.noConfusion h
      | some d =>
        simp only [hw, Option.some.injEq] at h
        subst h
        have hl := write_length hw
        obtain ⟨w1, w2, w3⟩ := hwf
        exact ⟨by show d.length = a.capacity; omega, w2, w3⟩

theorem grow_keeps_valid {T : Type} {sz : Nat} {r : Alloc T} {a : ArrayList T} {n : Nat}
    {res : Outcome T} (hwf : WF a) (hsz : 0 < sz) (h : arraylist_grow sz r a n = some res) :
    WF res.arraylist := by
  by_cases hs : res.code = .SUCCESS
  · obtain ⟨h1, h2, h3, h4, _, h6⟩ := grow_success h hs
    have hl := realloc_length h6
    rw [Nat.mul_div_cancel _ hsz] at hl
    have : n * 1 ≤ n * sz := Nat.mul_le_mul_left n hsz
    obtain ⟨w1, w2, w3⟩ := hwf
    exact ⟨by omega, by omega, by omega⟩
  · rw [grow_failure h hs]
    exact hwf

theorem remove_keeps_valid {T : Type} {a : ArrayList T} {i : Nat} {out : Bool}
    {res : Outcome T} (hwf : WF a) (h : arraylist_remove a i out = some res) :
    WF res.arraylist := by
  obtain ⟨res0, h0, hw, _⟩ := remove_total a i out hwf
  rw [h0] at h
  simp only [Option.some.injEq] at h
  subst h
  exact hw

theorem call_keeps_valid {T : Type} {sz : Nat} {a : ArrayList T} {c : Call T} {res : Outcome T}
    (hsz : 0 < sz) (hwf : WF a) (h : c.run sz a = some res) : WF res.arraylist := by
  cases c with
  | get i out => rw [get_step h]; exact hwf
  | set i v out => exact set_keeps_valid hwf h
  | get_first out => rw [get_first_step h]; exact hwf
  | get_last out => rw [get_last_step h]; exact hwf
  | grow r n => exact grow_keeps_valid hwf hsz h
  | add r i v => exact (add_keeps_valid hwf h).1
  | add_first r v =>
    exact (add_keeps_valid hwf (show arraylist_add sz r a 0 v = some res from h)).1
  | add_last r v =>
    exact (add_keeps_valid hwf (show arraylist_add sz r a a.count v = some res from h)).1
  | remove i out => exact remove_keeps_valid hwf h
  | remove_first out =>
    exact remove_keeps_valid hwf (show arraylist_remove a 0 out = some res from h)
  | remove_last out =>
    exact remove_keeps_valid hwf
      (show arraylist_remove a (size_sub a.count 1) out = some res from h)

theorem reachable_valid {T : Type} {sz : Nat} {a : ArrayList T} (hsz : 0 < sz)
    (hfit : sz * INITIAL_CAPACITY ≤ SIZE_MAX) (hreach : Reachable sz a) :
    WF a ∧ 10 ≤ a.capacity := by
  obtain ⟨header, buffer, created, calls, log, hcreate, hlog, hstate⟩ := hreach
  obtain ⟨h0, h10, hlen⟩ := create_spec hcreate
  have h10n : created.capacity = 10 := h10
  have hwf : WF created := ⟨by rw [hlen hsz hfit, h10], by omega, by rw [h10]; decide⟩
  have hvalid := run_calls_invariant sz WF (fun _ _ _ hp hc => call_keeps_valid hsz hp hc)
    calls created log hwf hlog
  have hb := (run_calls_bounds sz calls created log (by omega) hlog log.length).2
  rw [List.take_length, hstate] at hb
  rw [hstate] at hvalid
  exact ⟨hvalid, by omega⟩

theorem add_success_of_reserve {T : Type} {sz : Nat} {r : Alloc T} {a : ArrayList T} {i : Nat}
    {v : T} {res g : Outcome T} (hi : i ≤ a.count) (h : arraylist_add sz r a i v = some res)
    (hg : add_reserve sz r a = some g) (hgs : g.code = .SUCCESS) : res.code = .SUCCESS := by
  unfold arraylist_add at h
  rw [if_neg (by omega), hg] at h
  simp only [hgs, ne_eq, not_true_eq_false, if_false] at h
  cases hm : memmove g.arraylist.data (size_add i 1) i (size_sub g.arraylist.count i) with
  | none => simp only [hm] at h; exact Option.noConfusion h
  | some moved =>
    simp only [hm] at h
    cases hw : write moved i v with
    | none => simp only [hw] at h; exact Option.noConfusion h
    | some d =>
      simp only [hw, Option.some.injEq] at h
      subst h
      rfl

theorem run_calls_snoc {T : Type} (sz : Nat) (cs : List (Call T)) (c : Call T) :
    ∀ (a : ArrayList T) (log : List (Call T × Outcome T)),
      run_calls sz a (cs ++ [c]) = some log →
      ∃ init res, run_calls sz a cs = some init ∧
        c.run sz (state_after a init) = some res ∧ log = init ++ [(c, res)] ∧
        state_after a log = res.arraylist := by
  induction cs with
  | nil =>
    intro a log h
    obtain ⟨res, rest, hc, hr, hlog⟩ := run_calls_cons h
    rw [run_calls] at hr
    simp only [Option.some.injEq] at hr
    subst hr
    subst hlog
    exact ⟨[], res, rfl, hc, rfl, rfl⟩
  | cons d ds ih =>
    intro a log h
    obtain ⟨res, rest, hc, hr, hlog⟩ := run_calls_cons h
    obtain ⟨init, last, h1, h2, h3, h4⟩ := ih res.arraylist rest hr
    subst hlog
    refine ⟨(d, res) :: init, last, ?_, h2, ?_, h4⟩
    · rw [run_calls]
      simp only [hc, h1]
    · rw [h3]
      rfl

theorem live_length {T : Type} {a : ArrayList T} (hwf : WF a) : (live a).length = a.count := by
  unfold live
  rw [List.length_take]
  have := hwf.1
  have := hwf.2.1
  omega

theorem appends_in_order {T : Type} (sz : Nat) (ps : List (Alloc T × T)) :
    ∀ (a : ArrayList T) (log : List (Call T × Outcome T)), WF a →
      run_calls sz a (ps.map fun p => Call.add_last p.1 p.2) = some log →
      (∀ p ∈ log, p.2.code ≠ .MEMORY_ERROR) →
      (∀ p ∈ log, p.2.code = .SUCCESS) ∧ WF (state_after a log) ∧
        live (state_after a log) = live a ++ ps.map Prod.snd ∧
        (state_after a log).count = a.count + ps.length ∧
        (a.count + ps.length ≤ a.capacity → (state_after a log).capacity = a.capacity) := by
  induction ps with
  | nil =>
    intro a log hwf h _
    rw [List.map_nil, run_calls] at h
    simp only [Option.some.injEq] at h
    subst h
    refine ⟨fun p hp => absurd hp (List.not_mem_nil p), hwf, ?_, rfl, fun _ => rfl⟩
    show live a = live a ++ []
    rw [List.append_nil]
  | cons q qs ih =>
    intro a log hwf h hno
    rw [List.map_cons] at h
    obtain ⟨res, rest, hc, hr, hlog⟩ := run_calls_cons h
    subst hlog
    have hadd : arraylist_add sz q.1 a a.count q.2 = some res := hc
    have hs : res.code = .SUCCESS := by
      rcases add_code_of_le (le_refl _) hadd with e | e
      · exact e
      · exact absurd (by rw [e]) (hno _ (List.mem_cons_self _ _))
    obtain ⟨hwf2, hcnt, hcap, _, hlive⟩ := add_success hwf (le_refl _) hadd hs
    obtain ⟨i1, i2, i3, i4, i5⟩ := ih res.arraylist rest hwf2 hr
      (fun p hp => hno p (List.mem_cons_of_mem _ hp))
    have hll := live_length hwf
    refine ⟨?_, i2, ?_, ?_, ?_⟩
    · intro p hp
      rcases List.mem_cons.mp hp with e | e
      · rw [e]
        exact hs
      · exact i1 p e
    · show live (state_after res.arraylist rest) = live a ++ (q.2 :: qs.map Prod.snd)
      rw [i3, hlive, List.take_of_length_le (by omega), List.drop_of_length_le (by omega),
        List.append_assoc]
      rfl
    · show (state_after res.arraylist rest).count = a.count + (qs.length + 1)
      rw [i4, hcnt]
      omega
    · intro hroom
      have hlen : (q :: qs).length = qs.length + 1 := rfl
      show (state_after res.arraylist rest).capacity = a.capacity
      have hsame : res.arraylist.capacity = a.capacity := by
        rcases add_capacity hadd with ⟨e1, _⟩ | ⟨_, e2, _⟩
        · exact e1
        · omega
      rw [i5 (by omega), hsame]

theorem appends_succeed {T : Type} (sz : Nat) (hsz : 0 < sz) (ps : List (Alloc T × T)) :
    ∀ (a : ArrayList T) (log : List (Call T × Outcome T)), WF a → 2 ≤ a.capacity →
      (∀ p ∈ ps, p.1 ≠ none) →
      ((a.count + ps.length) + (a.count + ps.length) / 2) * sz ≤ SIZE_MAX →
      run_calls sz a (ps.map fun p => Call.add_last p.1 p.2) = some log →
      ∀ p ∈ log, p.2.code ≠ .MEMORY_ERROR := by
  induction ps with
  | nil =>
    intro a log _ _ _ _ h
    rw [List.map_nil, run_calls] at h
    simp only [Option.some.injEq] at h
    subst h
    exact fun p hp => absurd hp (List.not_mem_nil p)
  | cons q qs ih =>
    intro a log hwf h2 hall hbytes h
    rw [List.map_cons] at h
    obtain ⟨res, rest, hc, hr, hlog⟩ := run_calls_cons h
    subst hlog
    have hadd : arraylist_add sz q.1 a a.count q.2 = some res := hc
    have hlen : (q :: qs).length = qs.length + 1 := rfl
    rw [hlen] at hbytes
    have hmono : (a.count + a.count / 2) * sz
        ≤ ((a.count + (qs.length + 1)) + (a.count + (qs.length + 1)) / 2) * sz :=
      Nat.mul_le_mul_right _ (by omega)
    have hone : (a.count + a.count / 2) * 1 ≤ (a.count + a.count / 2) * sz :=
      Nat.mul_le_mul_left _ hsz
    have hs : res.code = .SUCCESS := by
      by_cases hfull : a.count = a.capacity
      · have hcapfit : a.capacity + a.capacity / 2 ≤ SIZE_MAX := by
          rw [← hfull]
          omega
        have hn : add_new_capacity a.capacity = some (a.capacity + a.capacity / 2) := by
          rw [add_new_capacity_eq _ hwf.2.2, if_pos hcapfit]
        have hq := hall q (List.mem_cons_self _ _)
        cases hq1 : q.1 with
        | none => exact absurd hq1 hq
        | some fill =>
        rw [hq1] at hadd
        obtain ⟨g, hg, hgs, _⟩ := grow_succeeds sz fill a (a.capacity + a.capacity / 2) hwf hsz
          (by omega) (by rw [← hfull]; omega)
        have hg2 : add_reserve sz (some fill) a = some g := by
          unfold add_reserve
          rw [if_pos hfull, hn]
          exact hg
        exact add_success_of_reserve (le_refl _) hadd hg2 hgs
      · have hg : add_reserve sz q.1 a = some ⟨.SUCCESS, a, none⟩ := by
          unfold add_reserve
          rw [if_neg hfull]
        exact add_success_of_reserve (le_refl _) hadd hg rfl
    obtain ⟨hwf2, hcnt, hcap, _, _⟩ := add_success hwf (le_refl _) hadd hs
    have hrest := ih res.arraylist rest hwf2 (by omega)
      (fun p hp => hall p (List.mem_cons_of_mem _ hp))
      (by rw [hcnt]; rw [show a.count + 1 + qs.length = a.count + (qs.length + 1) from by omega]
          exact hbytes) hr
    intro p hp
    rcases List.mem_cons.mp hp with e | e
    · rw [e, hs]
      exact ArrayListError.noConfusion
    · exact hrest p e

/-- C13: `add_last` called for each value of a list in order on a freshly created container
always returns; when no call reports `MEMORY_ERROR` (every allocation succeeded: it is so when
the allocator hands out a block each time and the byte sizes fit in `size_t`), every call
returns `SUCCESS`, `count` ends as the number `n` of values and `get(k)` returns the `k`-th
value for every `k < n`; for `n = 11` the capacity ends as 15. -/
theorem append_preserves_order {T : Type} (sz : Nat) (header : Bool) (buffer : Alloc T)
    (a : ArrayList T) (ps : List (Alloc T × T)) (hsz : 0 < sz)
    (hfit : sz * INITIAL_CAPACITY ≤ SIZE_MAX)
    (hcreate : arraylist_create sz header buffer = some a) :
    ∃ log, run_calls sz a (ps.map fun p => Call.add_last p.1 p.2) = some log ∧
      ((∀ p ∈ ps, p.1 ≠ none) → (ps.length + ps.length / 2) * sz ≤ SIZE_MAX →
        ∀ p ∈ log, p.2.code ≠ .MEMORY_ERROR) ∧
      ((∀ p ∈ log, p.2.code ≠ .MEMORY_ERROR) →
        (∀ p ∈ log, p.2.code = .SUCCESS) ∧
        (state_after a log).count = ps.length ∧
        (∀ k, k < ps.length →
          arraylist_get (state_after a log) k true
            = some ⟨.SUCCESS, state_after a log, (ps.map Prod.snd)[k]?⟩) ∧
        (ps.length = 11 → (state_after a log).capacity = 15)) := by
  obtain ⟨h0, h10, hlen⟩ := create_spec hcreate
  have h10n : a.capacity = 10 := h10
  have hwf : WF a := ⟨by rw [hlen hsz hfit, h10], by omega, by rw [h10]; decide⟩
  have hkind : ∀ c ∈ ps.map (fun p => Call.add_last p.1 p.2),
      c.is_add = true ∨ c.is_remove = true := by
    intro c hc
    obtain ⟨p, _, hp⟩ := List.mem_map.mp hc
    rw [← hp]
    exact Or.inl rfl
  obtain ⟨log, hlog⟩ := run_calls_total sz hsz _ a hwf (by omega) hkind
  refine ⟨log, hlog, ?_, ?_⟩
  · intro hall hbytes
    exact appends_succeed sz hsz ps a log hwf (by omega) hall (by rw [h0, Nat.zero_add]; exact hbytes)
      hlog
  · intro hno
    obtain ⟨i1, i2, i3, i4, _⟩ := appends_in_order sz ps a log hwf hlog hno
    have hlive0 : live a = [] := by
      unfold live
      rw [h0]
      rfl
    rw [hlive0, List.nil_append] at i3
    rw [h0, Nat.zero_add] at i4
    refine ⟨i1, i4, ?_, ?_⟩
    · intro k hk
      have hle : (state_after a log).count ≤ (state_after a log).data.length := by
        have := i2.1
        have := i2.2.1
        omega
      rw [get_spec _ k true hle, if_neg (by omega), if_neg (by omega),
        if_pos ⟨rfl, by omega⟩, i3]
    · intro h11
      have hne : ps ≠ [] := by
        intro e
        rw [e] at h11
        exact Nat.noConfusion h11
      have hsplit := List.dropLast_append_getLast hne
      have hcalls : ps.map (fun p => Call.add_last p.1 p.2)
          = ps.dropLast.map (fun p => Call.add_last p.1 p.2)
            ++ [Call.add_last (ps.getLast hne).1 (ps.getLast hne).2] := by
        have hm := congrArg (List.map fun p => Call.add_last p.1 p.2) hsplit
        rw [List.map_append] at hm
        exact hm.symm
      rw [hcalls] at hlog
      obtain ⟨init, res, e1, e2, e3, e4⟩ := run_calls_snoc sz _ _ a log hlog
      have hno1 : ∀ p ∈ init, p.2.code ≠ .MEMORY_ERROR := by
        intro p hp
        exact hno p (by rw [e3]; exact List.mem_append_left _ hp)
      have hlen10 : ps.dropLast.length = 10 := by
        rw [List.length_dropLast, h11]
      obtain ⟨_, _, _, j4, j5⟩ := appends_in_order sz ps.dropLast a init hwf e1 hno1
      rw [hlen10, h0] at j4 j5
      have hcap10 := j5 (by omega)
      have hadd : arraylist_add sz (ps.getLast hne).1 (state_after a init)
          (state_after a init).count (ps.getLast hne).2 = some res := e2
      have hs : res.code = .SUCCESS := i1 _ (by rw [e3]; exact List.mem_append_right _ (List.mem_singleton_self _))
      rw [e4]
      rcases add_capacity hadd with ⟨_, f2⟩ | ⟨_, _, _, _, f5⟩
      · exact absurd (by omega) (f2 hs)
      · rw [hcap10, h10n] at f5
        have h15 : add_new_capacity 10 = some 15 := by decide
        rw [h15] at f5
        simp only [Option.some.injEq] at f5
        exact f5.symm

theorem append_preserves_order_witness :
    ∃ log,
      run_calls 4 (⟨[0, 0, 0, 0, 0, 0, 0, 0, 0, 0], 0, 10⟩ : ArrayList Nat)
        (((List.range 11).map fun k => ((some fun _ => 0 : Alloc Nat), k + 1)).map
          fun p => Call.add_last p.1 p.2) = some log ∧
      (state_after (⟨[0, 0, 0, 0, 0, 0, 0, 0, 0, 0], 0, 10⟩ : ArrayList Nat) log).count = 11 ∧
      (state_after (⟨[0, 0, 0, 0, 0, 0, 0, 0, 0, 0], 0, 10⟩ : ArrayList Nat) log).capacity
        = 15 ∧
      arraylist_get (state_after (⟨[0, 0, 0, 0, 0, 0, 0, 0, 0, 0], 0, 10⟩ : ArrayList Nat) log)
          10 true
        = some ⟨.SUCCESS,
            state_after (⟨[0, 0, 0, 0, 0, 0, 0, 0, 0, 0], 0, 10⟩ : ArrayList Nat) log,
            some 11⟩ :=
  match append_preserves_order 4 true (some fun _ => 0)
      (⟨[0, 0, 0, 0, 0, 0, 0, 0, 0, 0], 0, 10⟩ : ArrayList Nat)
      ((List.range 11).map fun k => ((some fun _ => 0 : Alloc Nat), k + 1))
      (by decide) (by decide) (by decide) with
  | ⟨log, hlog, hsucceed, horder⟩ =>
    have hno := hsucceed
      (by
        intro p hp
        obtain ⟨k, _, hk⟩ := List.mem_map.mp hp
        rw [← hk]
        exact fun h => Option.noConfusion h)
      (by decide)
    ⟨log, hlog, (horder hno).2.1, (horder hno).2.2.2 rfl, (horder hno).2.2.1 10 (by decide)⟩

theorem length_ten {T : Type} (l : List T) (h : l.length = 10) :
    ∃ d0 d1 d2 d3 d4 d5 d6 d7 d8 d9, l = [d0, d1, d2, d3, d4, d5, d6, d7, d8, d9] := by
  match l, h with
  | [d0, d1, d2, d3, d4, d5, d6, d7, d8, d9], _ =>
    exact ⟨d0, d1, d2, d3, d4, d5, d6, d7, d8, d9, rfl⟩

/-- C14: on a freshly created container (capacity 10, count 0), whatever its slots hold and
whatever the allocator would answer: `add_last(5)`, `add_last(7)`, `add_first(3)` return
`SUCCESS` and leave `[3, 5, 7]`, count 3; `remove(1)` returns `SUCCESS`, yields 5 and leaves
`[3, 7]`, count 2; `get(5)` returns `INDEX_OUT_OF_BOUNDS_ERROR`; `remove_last` returns
`SUCCESS` yielding 7, then `SUCCESS` yielding 3, and a third `remove_last` returns
`EMPTY_ARRAYLIST_ERROR`. -/
theorem scenario_add_remove (sz : Nat) (header : Bool) (buffer : Alloc Nat) (a : ArrayList Nat)
    (r1 r2 r3 : Alloc Nat) (hsz : 0 < sz) (hfit : sz * INITIAL_CAPACITY ≤ SIZE_MAX)
    (hcreate : arraylist_create sz header buffer = some a) :
    a.count = 0 ∧ a.capacity = 10 ∧
    ∃ log, run_calls sz a [.add_last r1 5, .add_last r2 7, .add_first r3 3, .remove 1 true,
        .get 5 true, .remove_last true, .remove_last true, .remove_last true] = some log ∧
      log.map (fun p => (p.2.code, p.2.out, live p.2.arraylist, p.2.arraylist.count)) =
        [(.SUCCESS, none, [5], 1), (.SUCCESS, none, [5, 7], 2), (.SUCCESS, none, [3, 5, 7], 3),
          (.SUCCESS, some 5, [3, 7], 2), (.INDEX_OUT_OF_BOUNDS_ERROR, none, [3, 7], 2),
          (.SUCCESS, some 7, [3], 1), (.SUCCESS, some 3, [], 0),
          (.EMPTY_ARRAYLIST_ERROR, none, [], 0)] := by
  obtain ⟨h0, h10, hlen⟩ := create_spec hcreate
  have hl := hlen hsz hfit
  obtain ⟨data, count, capacity⟩ := a
  simp only at h0 h10 hl
  subst h0
  subst h10
  obtain ⟨d0, d1, d2, d3, d4, d5, d6, d7, d8, d9, rfl⟩ := length_ten data hl
  refine ⟨rfl, rfl, ?_⟩
  clear hcreate hlen hl
  simp [INITIAL_CAPACITY, run_calls, Call.run, arraylist_add_last, arraylist_add_first, arraylist_add,
    add_reserve, memmove, write, size_add, size_sub, SIZE_MAX, arraylist_remove,
    arraylist_remove_last, arraylist_get, read_out, live]

theorem scenario_add_remove_witness :
    ∃ log, run_calls 4 (⟨[0, 0, 0, 0, 0, 0, 0, 0, 0, 0], 0, 10⟩ : ArrayList Nat)
        [.add_last none 5, .add_last none 7, .add_first none 3, .remove 1 true,
          .get 5 true, .remove_last true, .remove_last true, .remove_last true] = some log ∧
      log.map (fun p => (p.2.code, p.2.out, live p.2.arraylist, p.2.arraylist.count)) =
        [(.SUCCESS, none, [5], 1), (.SUCCESS, none, [5, 7], 2), (.SUCCESS, none, [3, 5, 7], 3),
          (.SUCCESS, some 5, [3, 7], 2), (.INDEX_OUT_OF_BOUNDS_ERROR, none, [3, 7], 2),
          (.SUCCESS, some 7, [3], 1), (.SUCCESS, some 3, [], 0),
          (.EMPTY_ARRAYLIST_ERROR, none, [], 0)] :=
  (scenario_add_remove 4 true (some fun _ => 0) ⟨[0, 0, 0, 0, 0, 0, 0, 0, 0, 0], 0, 10⟩
    none none none (by decide) (by decide) (by decide)).2.2

/-- C15: on every container with `count == 0`, `remove_last` returns
`EMPTY_ARRAYLIST_ERROR` and leaves the container as it was, although the index it passes,
`count - 1`, wraps to `SIZE_MAX`; on every valid non-empty container `remove_last` returns
`SUCCESS`, stores the element at `count - 1` through `out` (when given) and leaves exactly the
first `count - 1` elements in place; `remove_first` is `remove(0)`. -/
theorem remove_last_guarded {T : Type} (a : ArrayList T) (out : Bool) :
    (a.count = 0 →
      size_sub a.count 1 = SIZE_MAX ∧
      arraylist_remove_last a out = some ⟨.EMPTY_ARRAYLIST_ERROR, a, none⟩) ∧
    (WF a → a.count ≠ 0 →
      ∃ res, arraylist_remove_last a out = some res ∧ res.code = .SUCCESS ∧
        res.out = (if out = true then (live a)[a.count - 1]? else none) ∧
        (∃ x, (live a)[a.count - 1]? = some x) ∧
        live res.arraylist = (live a).take (a.count - 1) ∧
        res.arraylist.count = a.count - 1 ∧ res.arraylist.capacity = a.capacity) ∧
    arraylist_remove_first a out = arraylist_remove a 0 out := by
  refine ⟨?_, ?_, rfl⟩
  · intro h0
    constructor
    · rw [h0]
      decide
    · unfold arraylist_remove_last arraylist_remove
      rw [if_pos h0]
  · intro hwf hne
    have hlt : a.count - 1 < a.count := by omega
    obtain ⟨res, h1, h2, h3, h4, h5, h6, _⟩ := remove_success out hwf hlt
    have hll : (live a).length = a.count := by
      unfold live
      rw [List.length_take]
      have := hwf.1
      have := hwf.2.1
      omega
    refine ⟨res, ?_, h2, h3, ⟨(live a)[a.count - 1], List.getElem?_eq_getElem (by omega)⟩, ?_,
      by omega, h6⟩
    · unfold arraylist_remove_last
      rw [size_sub_eq (by omega)]
      exact h1
    · rw [h4, List.eraseIdx_eq_take_drop_succ, List.drop_of_length_le (by omega),
        List.append_nil]

theorem remove_last_guarded_witness :
    arraylist_remove_last (⟨[0, 0], 0, 2⟩ : ArrayList Nat) true
        = some ⟨.EMPTY_ARRAYLIST_ERROR, ⟨[0, 0], 0, 2⟩, none⟩ ∧
      ∃ res, arraylist_remove_last (⟨[1, 2, 3, 0], 3, 4⟩ : ArrayList Nat) true = some res ∧
        res.code = .SUCCESS ∧ res.out = some 3 ∧ live res.arraylist = [1, 2] :=
  ⟨((remove_last_guarded (⟨[0, 0], 0, 2⟩ : ArrayList Nat) true).1 (by decide)).2,
    match (remove_last_guarded (⟨[1, 2, 3, 0], 3, 4⟩ : ArrayList Nat) true).2.1 (by decide)
      (by decide) with
    | ⟨res, h1, h2, h3, _, h4, _, _⟩ => ⟨res, h1, h2, h3, h4⟩⟩

/-- C16: on every container, empty or not, `get_first` returns what `get(0)` returns and
`get_last` returns what `get(count - 1)` returns, `count - 1` being computed in `size_t`
arithmetic (code, container and value stored through `out` alike); on an empty container both
return `EMPTY_ARRAYLIST_ERROR`. -/
theorem get_first_last_agree_with_get {T : Type} (a : ArrayList T) (out : Bool) :
    arraylist_get_first a out = arraylist_get a 0 out ∧
    arraylist_get_last a out = arraylist_get a (size_sub a.count 1) out ∧
    (a.count = 0 →
      arraylist_get_first a out = some ⟨.EMPTY_ARRAYLIST_ERROR, a, none⟩ ∧
      arraylist_get_last a out = some ⟨.EMPTY_ARRAYLIST_ERROR, a, none⟩) := by
  refine ⟨?_, ?_, ?_⟩
  · unfold arraylist_get_first arraylist_get
    by_cases h0 : a.count = 0
    · rw [if_pos h0, if_pos h0]
    · rw [if_neg h0, if_neg h0, if_neg (by omega)]
  · unfold arraylist_get_last arraylist_get
    by_cases h0 : a.count = 0
    · rw [if_pos h0, if_pos h0]
    · rw [if_neg h0, if_neg h0, size_sub_eq (by omega), if_neg (by omega)]
  · intro h0
    unfold arraylist_get_first arraylist_get_last
    rw [if_pos h0, if_pos h0]
    exact ⟨rfl, rfl⟩

/-- C17: on every container reachable from construction and for every value, `add(count, v)`,
which is what `add_last(v)` calls, returns, and returns `SUCCESS` or `MEMORY_ERROR`, never
`EMPTY_ARRAYLIST_ERROR` or `INDEX_OUT_OF_BOUNDS_ERROR`; it returns `SUCCESS` whenever
`count < capacity`, and whenever `count == capacity` and the `grow` it triggers returns
`SUCCESS`. -/
theorem append_succeeds_unless_allocation_fails {T : Type} (sz : Nat) (r : Alloc T)
    (a : ArrayList T) (v : T) (hsz : 0 < sz) (hfit : sz * INITIAL_CAPACITY ≤ SIZE_MAX)
    (hreach : Reachable sz a) :
    arraylist_add_last sz r a v = arraylist_add sz r a a.count v ∧
    ∃ res, arraylist_add sz r a a.count v = some res ∧
      (res.code = .SUCCESS ∨ res.code = .MEMORY_ERROR) ∧
      res.code ≠ .EMPTY_ARRAYLIST_ERROR ∧ res.code ≠ .INDEX_OUT_OF_BOUNDS_ERROR ∧
      (a.count < a.capacity → res.code = .SUCCESS) ∧
      (a.count = a.capacity → ∀ n g, add_new_capacity a.capacity = some n →
        arraylist_grow sz r a n = some g → g.code = .SUCCESS → res.code = .SUCCESS) := by
  obtain ⟨hwf, h10⟩ := reachable_valid hsz hfit hreach
  obtain ⟨res, h⟩ := add_total sz r a a.count v hwf (by omega) hsz
  have hcode : res.code = .SUCCESS ∨ res.code = .MEMORY_ERROR := by
    rcases add_code_of_le (le_refl _) h with hc | hc
    · exact Or.inl hc
    · rw [hc]
      exact Or.inr rfl
  refine ⟨rfl, res, h, hcode, ?_, ?_, ?_, ?_⟩
  · rcases hcode with hc | hc <;> rw [hc] <;> exact ArrayListError.noConfusion
  · rcases hcode with hc | hc <;> rw [hc] <;> exact ArrayListError.noConfusion
  · intro hlt
    have hg : add_reserve sz r a = some ⟨.SUCCESS, a, none⟩ := by
      unfold add_reserve
      rw [if_neg (by omega)]
    exact add_success_of_reserve (le_refl _) h hg rfl
  · intro hfull n g hn hg hgs
    have hg2 : add_reserve sz r a = some g := by
      unfold add_reserve
      rw [if_pos hfull, hn]
      exact hg
    exact add_success_of_reserve (le_refl _) h hg2 hgs

theorem append_succeeds_unless_allocation_fails_witness :
    Reachable 4 (⟨[0, 0, 0, 0, 0, 0, 0, 0, 0, 0], 0, 10⟩ : ArrayList Nat) ∧
      ∃ res, arraylist_add 4 none (⟨[0, 0, 0, 0, 0, 0, 0, 0, 0, 0], 0, 10⟩ : ArrayList Nat) 0 5
          = some res ∧ res.code = .SUCCESS :=
  ⟨⟨true, some fun _ => 0, ⟨[0, 0, 0, 0, 0, 0, 0, 0, 0, 0], 0, 10⟩, [], [],
      by decide, rfl, rfl⟩,
    match (append_succeeds_unless_allocation_fails 4 none
      (⟨[0, 0, 0, 0, 0, 0, 0, 0, 0, 0], 0, 10⟩ : ArrayList Nat) 5 (by decide) (by decide)
      ⟨true, some fun _ => 0, ⟨[0, 0, 0, 0, 0, 0, 0, 0, 0, 0], 0, 10⟩, [], [],
        by decide, rfl, rfl⟩).2 with
    | ⟨res, h1, _, _, _, h2, _⟩ => ⟨res, h1, h2 (by decide)⟩⟩

theorem reachable_typed {T : Type} {sz : Nat} {a : ArrayList T} (hsz : 0 < sz)
    (hreach : Reachable sz a) : a.capacity ≤ SIZE_MAX ∧ 10 ≤ a.capacity := by
  obtain ⟨header, buffer, created, calls, log, hcreate, hlog, hstate⟩ := hreach
  obtain ⟨h0, h10, _⟩ := create_spec hcreate
  have h10n : created.capacity = 10 := h10
  have hcap : created.capacity ≤ SIZE_MAX := by
    rw [h10]
    decide
  obtain ⟨_, hj⟩ := run_calls_accounting sz calls created log (by omega) hcap
    (fun _ _ => Or.inl hsz) hlog
  obtain ⟨_, _, t3, t4⟩ := hj log.length
  rw [List.take_length, hstate] at t3 t4
  exact ⟨t4, by omega⟩

/-- C7: on every full container (`count == capacity`) reachable from construction, for every
`index <= count` and every value, if the growth `add` triggers fails (the allocator refuses,
the byte size of the requested capacity overflows, or `capacity == SIZE_MAX`) then `add`
returns `MEMORY_ERROR` and the container is exactly as it was before the call: nothing is
shifted, nothing is written. -/
theorem add_atomic_on_growth_failure {T : Type} (sz : Nat) (r : Alloc T) (a : ArrayList T)
    (i : Nat) (v : T) (hsz : 0 < sz) (hreach : Reachable sz a) (hfull : a.count = a.capacity)
    (hi : i ≤ a.count)
    (hfail : r = none ∨
      (∃ n, add_new_capacity a.capacity = some n ∧ SIZE_MAX < n * sz) ∨
      a.capacity = SIZE_MAX) :
    arraylist_add sz r a i v = some ⟨.MEMORY_ERROR, a, none⟩ := by
  obtain ⟨hcap, h10⟩ := reachable_typed hsz hreach
  apply add_growth_failure_of_capacity sz r a i v hcap hfull (by omega) hi
  rcases hfail with hf | hf | hf
  · exact Or.inr (Or.inl hf)
  · exact Or.inr (Or.inr hf)
  · exact Or.inl hf

theorem add_atomic_on_growth_failure_witness :
    Reachable 4 (⟨[1, 2, 3, 4, 5, 6, 7, 8, 9, 10], 10, 10⟩ : ArrayList Nat) ∧
      (⟨[1, 2, 3, 4, 5, 6, 7, 8, 9, 10], 10, 10⟩ : ArrayList Nat).count
        = (⟨[1, 2, 3, 4, 5, 6, 7, 8, 9, 10], 10, 10⟩ : ArrayList Nat).capacity ∧
      arraylist_add 4 none (⟨[1, 2, 3, 4, 5, 6, 7, 8, 9, 10], 10, 10⟩ : ArrayList Nat) 3 7
        = some ⟨.MEMORY_ERROR, ⟨[1, 2, 3, 4, 5, 6, 7, 8, 9, 10], 10, 10⟩, none⟩ :=
  have hreach : Reachable 4 (⟨[1, 2, 3, 4, 5, 6, 7, 8, 9, 10], 10, 10⟩ : ArrayList Nat) :=
    ⟨true, some fun _ => 0, ⟨[0, 0, 0, 0, 0, 0, 0, 0, 0, 0], 0, 10⟩,
      [.add_last none 1, .add_last none 2, .add_last none 3, .add_last none 4,
        .add_last none 5, .add_last none 6, .add_last none 7, .add_last none 8,
        .add_last none 9, .add_last none 10], _, by decide, rfl, rfl⟩
  ⟨hreach, by decide,
    add_atomic_on_growth_failure 4 none ⟨[1, 2, 3, 4, 5, 6, 7, 8, 9, 10], 10, 10⟩ 3 7
      (by decide) hreach (by decide) (by decide) (Or.inl rfl)⟩

/-- C18: for every capacity `c >= 2` (a `size_t`) the capacity `add` requests from `grow` is
strictly greater than `c`, whereas for `c` 0 or 1 the requested capacity equals `c`; every
container reachable from construction has capacity at least 10, so on every call `add` makes
to `grow` the assertion `new_capacity > capacity` holds and `grow` returns. -/
theorem grow_precondition_holds {T : Type} (sz : Nat) (r : Alloc T) (a : ArrayList T) :
    (∀ c n, c ≤ SIZE_MAX → 2 ≤ c → add_new_capacity c = some n → c < n) ∧
    add_new_capacity 0 = some 0 ∧ add_new_capacity 1 = some 1 ∧
    (0 < sz → Reachable sz a →
      10 ≤ a.capacity ∧
      ∀ n, add_new_capacity a.capacity = some n →
        a.capacity < n ∧ ∃ g, arraylist_grow sz r a n = some g) := by
  refine ⟨?_, by decide, by decide, ?_⟩
  · intro c n hc h2 hn
    exact (add_new_capacity_spec hc hn).2.2 h2
  · intro hsz hreach
    obtain ⟨hcap, h10⟩ := reachable_typed hsz hreach
    refine ⟨h10, ?_⟩
    intro n hn
    have hlt : a.capacity < n := (add_new_capacity_spec hcap hn).2.2 (by omega)
    refine ⟨hlt, ?_⟩
    unfold arraylist_grow builtin_mul_overflow
    rw [if_neg (by omega)]
    by_cases hov : SIZE_MAX < n * sz
    · simp only [hov, decide_True, if_true]
      exact ⟨_, rfl⟩
    · simp only [hov, decide_False]
      cases hr : realloc sz a.data (size_mul n sz) r with
      | none => exact ⟨_, rfl⟩
      | some d => exact ⟨_, rfl⟩

theorem grow_precondition_holds_witness :
    Reachable 4 (⟨[0, 0, 0, 0, 0, 0, 0, 0, 0, 0], 0, 10⟩ : ArrayList Nat) ∧
      add_new_capacity (⟨[0, 0, 0, 0, 0, 0, 0, 0, 0, 0], 0, 10⟩ : ArrayList Nat).capacity
        = some 15 ∧
      (⟨[0, 0, 0, 0, 0, 0, 0, 0, 0, 0], 0, 10⟩ : ArrayList Nat).capacity < 15 :=
  ⟨⟨true, some fun _ => 0, ⟨[0, 0, 0, 0, 0, 0, 0, 0, 0, 0], 0, 10⟩, [], [],
      by decide, rfl, rfl⟩,
    by decide,
    (((grow_precondition_holds 4 (none : Alloc Nat)
      (⟨[0, 0, 0, 0, 0, 0, 0, 0, 0, 0], 0, 10⟩ : ArrayList Nat)).2.2.2 (by decide)
      ⟨true, some fun _ => 0, ⟨[0, 0, 0, 0, 0, 0, 0, 0, 0, 0], 0, 10⟩, [], [],
        by decide, rfl, rfl⟩).2 15 (by decide)).1⟩

theorem call_bytes {T : Type} {sz : Nat} {a : ArrayList T} {c : Call T} {res : Outcome T}
    (hb : a.capacity * sz ≤ SIZE_MAX) (h : c.run sz a = some res) :
    res.arraylist.capacity * sz ≤ SIZE_MAX := by
  have hadd : ∀ r i v, arraylist_add sz r a i v = some res →
      res.arraylist.capacity * sz ≤ SIZE_MAX := by
    intro r i v h
    rcases add_capacity h with ⟨e1, _⟩ | ⟨_, _, _, e4, _⟩
    · rw [e1]
      exact hb
    · exact e4
  have hrem : ∀ i out, arraylist_remove a i out = some res →
      res.arraylist.capacity * sz ≤ SIZE_MAX := by
    intro i out h
    rcases remove_step h with ⟨_, _, h3⟩ | ⟨_, h2⟩
    · rw [h3]
      exact hb
    · rw [h2]
      exact hb
  cases c with
  | get i out => rw [get_step h]; exact hb
  | set i v out => rw [(set_step h).2]; exact hb
  | get_first out => rw [get_first_step h]; exact hb
  | get_last out => rw [get_last_step h]; exact hb
  | grow r n =>
    by_cases hs : res.code = .SUCCESS
    · obtain ⟨_, h2, _, h4, _, _⟩ := grow_success h hs
      rw [h4]
      exact h2
    · rw [grow_failure h hs]
      exact hb
  | add r i v => exact hadd r i v h
  | add_first r v => exact hadd r 0 v h
  | add_last r v => exact hadd r a.count v h
  | remove i out => exact hrem i out h
  | remove_first out => exact hrem 0 out h
  | remove_last out => exact hrem (size_sub a.count 1) out h

/-- C19: for every element size `s >= 2` with `10 * s <= SIZE_MAX`, every container reachable
from construction (through any calls of the interface, `grow` included) has
`capacity * s <= SIZE_MAX`, hence `capacity + capacity / 2 <= SIZE_MAX`: the overflow flag
`add` computes is false, so neither the `capacity + 1` fallback nor the
`capacity == SIZE_MAX` failure is taken, and the capacity requested is
`capacity + capacity / 2`. -/
theorem fallback_unreachable {T : Type} (sz : Nat) (a : ArrayList T) (hs : 2 ≤ sz)
    (hfit : 10 * sz ≤ SIZE_MAX) (hreach : Reachable sz a) :
    a.capacity * sz ≤ SIZE_MAX ∧ a.capacity + a.capacity / 2 ≤ SIZE_MAX ∧
      (builtin_add_overflow a.capacity (a.capacity >>> 1)).1 = false ∧
      a.capacity ≠ SIZE_MAX ∧
      add_new_capacity a.capacity = some (a.capacity + a.capacity / 2) := by
  obtain ⟨header, buffer, created, calls, log, hcreate, hlog, hstate⟩ := hreach
  obtain ⟨_, h10, _⟩ := create_spec hcreate
  have h10n : created.capacity = 10 := h10
  have hb0 : created.capacity * sz ≤ SIZE_MAX := by
    rw [h10n]
    exact hfit
  have hb := run_calls_invariant sz (fun x => x.capacity * sz ≤ SIZE_MAX)
    (fun _ _ _ hp hc => call_bytes hp hc) calls created log hb0 hlog
  rw [hstate] at hb
  have hb2 : a.capacity * sz ≤ SIZE_MAX := hb
  have h2 : a.capacity * 2 ≤ a.capacity * sz := Nat.mul_le_mul_left _ hs
  have hsum : a.capacity + a.capacity / 2 ≤ SIZE_MAX := by omega
  have hcap : a.capacity ≤ SIZE_MAX := by omega
  have hmax : (SIZE_MAX : Nat) = 18446744073709551615 := rfl
  refine ⟨hb2, hsum, ?_, by omega, ?_⟩
  · unfold builtin_add_overflow
    simp only [Nat.shiftRight_eq_div_pow, pow_one, decide_eq_false_iff_not, not_lt]
    exact hsum
  · rw [add_new_capacity_eq _ hcap, if_pos hsum]

theorem fallback_unreachable_witness :
    Reachable 4 (⟨[0, 0, 0, 0, 0, 0, 0, 0, 0, 0], 0, 10⟩ : ArrayList Nat) ∧
      add_new_capacity (⟨[0, 0, 0, 0, 0, 0, 0, 0, 0, 0], 0, 10⟩ : ArrayList Nat).capacity
        = some ((⟨[0, 0, 0, 0, 0, 0, 0, 0, 0, 0], 0, 10⟩ : ArrayList Nat).capacity
          + (⟨[0, 0, 0, 0, 0, 0, 0, 0, 0, 0], 0, 10⟩ : ArrayList Nat).capacity / 2) :=
  ⟨⟨true, some fun _ => 0, ⟨[0, 0, 0, 0, 0, 0, 0, 0, 0, 0], 0, 10⟩, [], [],
      by decide, rfl, rfl⟩,
    (fallback_unreachable 4 (⟨[0, 0, 0, 0, 0, 0, 0, 0, 0, 0], 0, 10⟩ : ArrayList Nat)
      (by decide) (by decide)
      ⟨true, some fun _ => 0, ⟨[0, 0, 0, 0, 0, 0, 0, 0, 0, 0], 0, 10⟩, [], [],
        by decide, rfl, rfl⟩).2.2.2.2⟩

/-- C20: for every valid container, every `i <= count` and every `v`, if `add(i, v)` returns
`SUCCESS` then `remove(i)` on the container it leaves returns `SUCCESS`, stores `v` through
`out` (when given) and restores the live sequence and `count` of before the `add`; the
capacity stays the one after the `add`: the old capacity if the container was not full, the
one requested from `grow` otherwise. -/
theorem add_then_remove {T : Type} (sz : Nat) (r : Alloc T) (a : ArrayList T) (i : Nat) (v : T)
    (out : Bool) (res : Outcome T) (hwf : WF a) (hi : i ≤ a.count)
    (h : arraylist_add sz r a i v = some res) (hs : res.code = .SUCCESS) :
    ∃ back, arraylist_remove res.arraylist i out = some back ∧ back.code = .SUCCESS ∧
      back.out = (if out = true then some v else none) ∧
      live back.arraylist = live a ∧ back.arraylist.count = a.count ∧
      back.arraylist.capacity = res.arraylist.capacity ∧
      (a.count ≠ a.capacity → back.arraylist.capacity = a.capacity) ∧
      (a.count = a.capacity → add_new_capacity a.capacity = some back.arraylist.capacity) := by
  obtain ⟨hwf2, hcnt, _, _, hlive⟩ := add_success hwf hi h hs
  obtain ⟨back, b1, b2, b3, b4, b5, b6, _⟩ :=
    remove_success out hwf2 (by omega : i < res.arraylist.count)
  have hll : (live a).length = a.count := by
    unfold live
    rw [List.length_take]
    have := hwf.1
    have := hwf.2.1
    omega
  have hlt : ((live a).take i).length = i := by
    rw [List.length_take]
    omega
  have hv : (live res.arraylist)[i]? = some v := by
    rw [hlive, List.getElem?_append_right (by omega), hlt]
    simp
  refine ⟨back, b1, b2, ?_, ?_, by omega, b6, ?_, ?_⟩
  · rw [b3, hv]
  · rw [b4, hlive, List.eraseIdx_append_of_length_le (by omega), hlt, Nat.sub_self,
      List.eraseIdx_cons_zero, List.take_append_drop]
  · intro hne
    rcases add_capacity h with ⟨e1, _⟩ | ⟨_, e2, _⟩
    · rw [b6, e1]
    · exact absurd e2 hne
  · intro hfull
    rcases add_capacity h with ⟨_, e2⟩ | ⟨_, _, _, _, e5⟩
    · exact absurd hfull (e2 hs)
    · rw [b6]
      exact e5

theorem add_then_remove_witness :
    arraylist_add 4 (some fun _ => 9) (⟨[1, 2, 3], 3, 3⟩ : ArrayList Nat) 1 7
        = some ⟨.SUCCESS, ⟨[1, 7, 2, 3], 4, 4⟩, none⟩ ∧
      ∃ back, arraylist_remove (⟨[1, 7, 2, 3], 4, 4⟩ : ArrayList Nat) 1 true = some back ∧
        back.code = .SUCCESS ∧ back.out = some 7 ∧
        live back.arraylist = live (⟨[1, 2, 3], 3, 3⟩ : ArrayList Nat) ∧
        back.arraylist.count = 3 ∧ back.arraylist.capacity = 4 :=
  ⟨by decide,
    match add_then_remove 4 (some fun _ => 9) ⟨[1, 2, 3], 3, 3⟩ 1 7 true
      ⟨.SUCCESS, ⟨[1, 7, 2, 3], 4, 4⟩, none⟩ (by decide) (by decide) (by decide) rfl with
    | ⟨back, h1, h2, h3, h4, h5, h6, _, _⟩ => ⟨back, h1, h2, h3, h4, h5, h6⟩⟩

end Noodle
